import Mathlib

/-!
Verification of `tools/build_sde_subset.py` (EVE SDE subset builder).

This file shallowly embeds the script's core pipeline in Lean:
scalar values that can appear in the raw JSON records are modelled by
`PyVal` (floats are modelled as rationals, parsed by a simplified decimal
parser; numeric strings are plain optionally-signed digit strings), raw
dict-or-list collections by `Blob`, and Python's `dict` by association
lists whose order is the dict's native iteration order (for collections
that the script iterates) or by lookup functions (for `types`, which the
script only ever indexes by key).  Fallible steps — the script's uncaught
`int()` / `TypeError` crash paths — are modelled in `Except Unit`.
Python's stable `list.sort(key=...)` is modelled by a stable insertion
sort.  The `generated` timestamp and the pass-through `meta`/provenance
fields are omitted from the artifact model: they are either
time-dependent or copied verbatim from the input.
-/

/-- Scalar JSON-ish values as the script sees them (via `json`/`orjson`).
Floats are modelled as rationals. -/
inductive PyVal where
  | vNull
  | vBool (b : Bool)
  | vInt (n : Int)
  | vRat (q : Rat)
  | vStr (s : String)
deriving DecidableEq, Repr

/-- Python truthiness for the scalars we model (`None`, `False`, `0`, `""`,
`0.0` are falsy). -/
def pyFalsy : PyVal → Bool
  | .vNull => true
  | .vBool b => !b
  | .vInt n => n == 0
  | .vRat q => q == 0
  | .vStr s => s == ""

/-- `d.get(k)` returns `None` both when the key is absent and when it maps to
JSON `null`; an `Option PyVal` field accessed without a default collapses to
`vNull` accordingly. -/
def pyGet (o : Option PyVal) : PyVal := o.getD .vNull

def isPyWs (c : Char) : Bool :=
  c = ' ' || c = '\t' || c = '\n' || c = '\x0d' || c = '\x0b' || c = '\x0c'

/-- Numeric value of a digit string (most significant first). -/
def digitsVal (l : List Char) : Nat :=
  l.foldl (fun acc c => acc * 10 + (c.toNat - '0'.toNat)) 0

/-- Both-ends whitespace strip, as Python `str.strip()`. -/
def stripWs (l : List Char) : List Char :=
  ((l.dropWhile isPyWs).reverse.dropWhile isPyWs).reverse

/-- Python `int(s)` on a string: optional surrounding whitespace, optional
sign, then a non-empty run of ASCII digits (underscore grouping is not
modelled). -/
def parseIntChars (l : List Char) : Option Int :=
  let l := stripWs l
  match l with
  | '-' :: rest =>
      if rest ≠ [] ∧ rest.all Char.isDigit then some (-(digitsVal rest : Int)) else none
  | '+' :: rest =>
      if rest ≠ [] ∧ rest.all Char.isDigit then some (digitsVal rest : Int) else none
  | rest =>
      if rest ≠ [] ∧ rest.all Char.isDigit then some (digitsVal rest : Int) else none

/-- Python `int(v)`: `none` models the raised `TypeError`/`ValueError`.
`int` of a float truncates toward zero. -/
def pyInt : PyVal → Option Int
  | .vNull => none
  | .vBool b => some (cond b 1 0)
  | .vInt n => some n
  | .vRat q => some (Int.tdiv q.num (q.den : Int))
  | .vStr s => parseIntChars s.data

/-- Decimal string accepted by our simplified model of Python `float(s)`:
optional sign, digits, optional dot and fraction digits (exponents are not
modelled). -/
def parseFracChars : List Char → Option Rat
  | l =>
    let l := stripWs l
    let core : List Char → Option Rat := fun m =>
      match m.span (· ≠ '.') with
      | (ip, []) => if ip ≠ [] ∧ ip.all Char.isDigit then some ((digitsVal ip : Int) : Rat) else none
      | (ip, _dot :: fp) =>
          if (ip ≠ [] ∨ fp ≠ []) ∧ ip.all Char.isDigit ∧ fp.all Char.isDigit ∧ ¬ fp.contains '.' then
            some (((digitsVal ip : Int) : Rat) + mkRat (digitsVal fp : Int) (10 ^ fp.length))
          else none
    match l with
    | '-' :: rest => (core rest).map (fun q => -q)
    | '+' :: rest => core rest
    | rest => core rest

/-- Python `float(v)`; `none` models the raised exception. -/
def pyFloat : PyVal → Option Rat
  | .vNull => none
  | .vBool b => some (cond b 1 0)
  | .vInt n => some (n : Rat)
  | .vRat q => some q
  | .vStr s => parseFracChars s.data

/-! ## Name Normalizer (`normalize_name`) -/

/-- ASCII model of Python `str.lower()`. -/
def pyLower (c : Char) : Char :=
  if 'A' ≤ c ∧ c ≤ 'Z' then Char.ofNat (c.toNat + 32) else c

theorem length_dropWhile_le (p : α → Bool) (l : List α) :
    (l.dropWhile p).length ≤ l.length := by
  induction l with
  | nil => simp
  | cons a t ih =>
    rw [List.dropWhile_cons]
    split
    · exact Nat.le_succ_of_le ih
    · exact Nat.le_refl _

/-- Helper for `collapseWs`: `prevWs` records whether the previous input
character was whitespace (already rendered as the single space of its run). -/
def collapseAux : Bool → List Char → List Char
  | _, [] => []
  | prevWs, c :: rest =>
    if isPyWs c then
      if prevWs then collapseAux true rest else ' ' :: collapseAux true rest
    else c :: collapseAux false rest

/-- `re.sub(r"\s+", " ", s)`: every maximal whitespace run becomes one
space. -/
def collapseWs (l : List Char) : List Char := collapseAux false l

/-- The two curly apostrophes normalized to `'` by `normalize_name`. -/
def isCurly (c : Char) : Bool := c = '’' || c = '‘'

def replaceCurly (l : List Char) : List Char :=
  l.map (fun c => if isCurly c then '\'' else c)

/-- `normalize_name`: strip, lowercase, collapse whitespace, normalize
curly apostrophes. -/
def normalize_name (s : String) : String :=
  String.mk (replaceCurly (collapseWs ((stripWs s.data).map pyLower)))

/-! ## Stable sort (model of Python's stable `list.sort(key=...)`) -/

def insertS (le : α → α → Bool) (a : α) : List α → List α
  | [] => [a]
  | b :: t => if le a b then a :: b :: t else b :: insertS le a t

/-- Stable insertion sort: elements comparing equal keep their original
relative order, as in CPython's Timsort. -/
def sortBy (le : α → α → Bool) (l : List α) : List α :=
  l.foldr (insertS le) []

theorem insertS_perm (le : α → α → Bool) (a : α) (l : List α) :
    List.Perm (insertS le a l) (a :: l) := by
  induction l with
  | nil => simp [insertS]
  | cons b t ih =>
    simp only [insertS]
    split
    · exact List.Perm.refl _
    · exact (ih.cons b).trans (List.Perm.swap a b t)

theorem sortBy_perm (le : α → α → Bool) (l : List α) :
    List.Perm (sortBy le l) l := by
  induction l with
  | nil => simp [sortBy]
  | cons a t ih =>
    have h1 : List.Perm (insertS le a (sortBy le t)) (a :: sortBy le t) :=
      insertS_perm le a (sortBy le t)
    simpa [sortBy] using h1.trans (ih.cons a)

theorem mem_sortBy {le : α → α → Bool} {l : List α} {a : α} :
    a ∈ sortBy le l ↔ a ∈ l := (sortBy_perm le l).mem_iff

theorem insertS_pairwise {le : α → α → Bool}
    (htot : ∀ a b, le a b || le b a) (htr : ∀ a b c, le a b → le b c → le a c)
    {a : α} {l : List α} (h : l.Pairwise (fun x y => le x y = true)) :
    (insertS le a l).Pairwise (fun x y => le x y = true) := by
  induction l with
  | nil => simp [insertS]
  | cons b t ih =>
    rw [List.pairwise_cons] at h
    obtain ⟨hb, ht⟩ := h
    simp only [insertS]
    split
    next hab =>
      refine List.Pairwise.cons ?_ (List.Pairwise.cons hb ht)
      intro x hx
      rcases List.mem_cons.mp hx with rfl | hx
      · exact hab
      · exact htr _ _ _ hab (hb _ hx)
    next hab =>
      have hba : le b a := by
        rcases Bool.or_eq_true_iff.mp (htot a b) with h1 | h1
        · exact absurd h1 hab
        · exact h1
      refine List.Pairwise.cons ?_ (ih ht)
      intro x hx
      rcases List.mem_cons.mp ((insertS_perm le a t).mem_iff.mp hx) with rfl | h1
      · exact hba
      · exact hb _ h1

theorem sortBy_pairwise {le : α → α → Bool}
    (htot : ∀ a b, le a b || le b a) (htr : ∀ a b c, le a b → le b c → le a c)
    (l : List α) : (sortBy le l).Pairwise (fun x y => le x y = true) := by
  induction l with
  | nil => simp [sortBy]
  | cons a t ih => exact insertS_pairwise htot htr ih

/-! ## Materials / products raw entries and the Shape Adapter -/

/-- One raw entry of a materials/products collection: the fields the script
reads from the entry dict.  `none` = field absent. -/
structure Row where
  type_id : Option PyVal := none
  quantity : Option PyVal := none
  probability : Option PyVal := none
deriving DecidableEq, Repr

/-- An element of a raw collection: either a record-like dict or some other
value (on which `.get` raises and the entry is skipped). -/
inductive Item where
  | notDict
  | row (r : Row)
deriving DecidableEq, Repr

/-- A materials/products slot: absent-or-falsy, a keyed mapping (assoc list
in native iteration order), an ordered list, or some other truthy value. -/
inductive Blob where
  | absent
  | dict (l : List (String × Item))
  | list (l : List Item)
  | other
deriving DecidableEq, Repr

/-- Parse of one materials entry (`_list_from_materials_blob` loop body):
`int(v.get("type_id"))`, `int(v.get("quantity"))`, kept only when both are
truthy (non-zero). -/
def matEntry (r : Row) : Option (Int × Int) :=
  match pyInt (pyGet r.type_id), pyInt (pyGet r.quantity) with
  | some tid, some qty => if tid ≠ 0 ∧ qty ≠ 0 then some (tid, qty) else none
  | _, _ => none

def itemMat : Item → Option (Int × Int)
  | .notDict => none
  | .row r => matEntry r

def leTid (a b : Int × Int) : Bool := decide (a.1 ≤ b.1)

/-- `_list_from_materials_blob`. -/
def listFromMaterialsBlob : Blob → List (Int × Int)
  | .absent => []
  | .other => []
  | .dict l => sortBy leTid (l.filterMap (fun kv => itemMat kv.2))
  | .list l => sortBy leTid (l.filterMap itemMat)

/-! ## Product Selector (`_pick_first_product`) -/

/-- Python `str.isdigit` (ASCII model): non-empty, all digits. -/
def isDigitStr (s : String) : Bool := s.data ≠ [] && s.data.all Char.isDigit

/-- The sort key `int(s) if str(s).isdigit() else str(s)` of a dict key. -/
def prodKey (s : String) : Int ⊕ String :=
  if isDigitStr s then .inl (digitsVal s.data : Int) else .inr s

def leNumKey (a b : String) : Bool := decide (digitsVal a.data ≤ digitsVal b.data)

def leStrKey (a b : String) : Bool := decide (a ≤ b)

/-- `sorted(products.keys(), key=...)`.  CPython raises `TypeError` as soon
as an `int` key is compared with a `str` key, which happens whenever the
key set mixes purely-numeric and non-numeric keys (modelled as `.error`);
otherwise it is a stable sort by the respective key. -/
def sortedKeys (ks : List String) : Except Unit (List String) :=
  if ks.all isDigitStr then .ok (sortBy leNumKey ks)
  else if ks.all (fun s => !isDigitStr s) then .ok (sortBy leStrKey ks)
  else .error ()

/-- Parse of one products entry: `int(v.get("type_id"))`,
`int(v.get("quantity", 1))`, returned when the type id is truthy, with the
quantity floored at 1. -/
def prodEntry (r : Row) : Option (Int × Int) :=
  match pyInt (pyGet r.type_id),
        (match r.quantity with | none => some 1 | some v => pyInt v) with
  | some tid, some qty => if tid ≠ 0 then some (tid, max 1 qty) else none
  | _, _ => none

/-- First-occurrence association lookup (dict keys are unique). -/
def assocFind (k : String) : List (String × α) → Option α
  | [] => none
  | (k2, v) :: t => if k2 == k then some v else assocFind k t

def pickFromKeys (l : List (String × Item)) : List String → Option (Int × Int)
  | [] => none
  | k :: ks =>
    match assocFind k l with
    | some (.row r) =>
      match prodEntry r with
      | some p => some p
      | none => pickFromKeys l ks
    | _ => pickFromKeys l ks

def pickList : List Item → Option (Int × Int)
  | [] => none
  | .notDict :: rest => pickList rest
  | .row r :: rest =>
    match prodEntry r with
    | some p => some p
    | none => pickList rest

/-- `_pick_first_product`; the `.error` case is the uncaught `TypeError`
raised by `sorted` on a mixed key set. -/
def pickFirstProduct : Blob → Except Unit (Option (Int × Int))
  | .absent => .ok none
  | .other => .ok none
  | .dict l =>
    match sortedKeys (l.map (·.1)) with
    | .error e => .error e
    | .ok ks => .ok (pickFromKeys l ks)
  | .list l => .ok (pickList l)

/-! ## Invention products (`_list_from_invention_products`) -/

structure InvProd where
  tid : Int
  qty : Int
  prob : Option Rat
deriving DecidableEq, Repr

/-- Parse of one invention products entry: the optional probability is
parsed as a float; on failure it is simply omitted. -/
def invEntry (r : Row) : Option InvProd :=
  match pyInt (pyGet r.type_id),
        (match r.quantity with | none => some 1 | some v => pyInt v) with
  | some tid, some qty =>
    if tid ≠ 0 then
      some ⟨tid, max 1 qty,
        if pyGet r.probability == .vNull then none
        else pyFloat (pyGet r.probability)⟩
    else none
  | _, _ => none

def itemInv : Item → Option InvProd
  | .notDict => none
  | .row r => invEntry r

def leInvTid (a b : InvProd) : Bool := decide (a.tid ≤ b.tid)

def listFromInventionProducts : Blob → List InvProd
  | .absent => []
  | .other => []
  | .list l => sortBy leInvTid (l.filterMap itemInv)
  | .dict l => sortBy leInvTid (l.filterMap (fun kv => itemInv kv.2))

/-! ## Type records, names, policy -/

/-- A raw `name` field: a localization dict (with its `en` entry) or the
`str()` rendering of any other truthy value; falsy names collapse to the
dict branch with no `en`. -/
inductive NameVal where
  | obj (en : Option String)
  | strv (s : String)
deriving DecidableEq, Repr

/-- `get_en_name`. -/
def get_en_name (n : Option NameVal) : String :=
  match n with
  | none => ""
  | some (.obj e) =>
    match e with
    | none => ""
    | some s => s
  | some (.strv s) => s

/-- Raw type record fields read by the script (`none` = absent). -/
structure TypeRow where
  type_id : Option PyVal := none
  name : Option NameVal := none
  published : Option Bool := none
  packaged_volume : Option PyVal := none
  volume : Option PyVal := none
  group_id : Option PyVal := none
  category_id : Option PyVal := none
  meta_group_id : Option PyVal := none
deriving DecidableEq, Repr

/-- `packaged_volume(type_row)`. -/
def packagedVolume (r : TypeRow) : Rat :=
  let pv := if pyGet r.packaged_volume == .vNull then pyGet r.volume
            else pyGet r.packaged_volume
  if pv == .vNull then 0 else (pyFloat pv).getD 0

def FILTER_PRODUCT_CATEGORIES_T1 : List Int := [7, 8, 18]

def FILTER_REQUIRE_META_GROUP_ID_T1 : Int := 1

/-- The roman-numeral alternatives of `FILTER_EXCLUDE_ROMAN_NUMERALS`. -/
def romanTokens : List (List Char) :=
  [['I','I'], ['I','I','I'], ['I','V'], ['V'], ['V','I'], ['V','I','I'],
   ['V','I','I','I'], ['I','X'], ['X']]

/-- `\w` word characters (ASCII model). -/
def isWordChar (c : Char) : Bool := c.isAlphanum || c = '_'

/-- Does token `t` match in `s` at offset `i` with `\b` boundaries on both
sides? -/
def tokenAt (s : List Char) (i : Nat) (t : List Char) : Bool :=
  ((s.drop i).take t.length == t)
  && (i = 0 || !(isWordChar ((s.take i).getLastD ' ')))
  && (match (s.drop (i + t.length)).head? with
      | none => true
      | some c => !(isWordChar c))

/-- `FILTER_EXCLUDE_ROMAN_NUMERALS.search(name)` as a boolean: some
alternative matches somewhere with word boundaries. -/
def romanSearch (s : String) : Bool :=
  (List.range (s.data.length + 1)).any
    (fun i => romanTokens.any (fun t => tokenAt s.data i t))

/-- `include_by_t1_policy` (the `t1` Eligibility Classifier). -/
def include_by_t1_policy (r : TypeRow) : Bool :=
  match pyInt (pyGet r.category_id) with
  | none => false
  | some cat =>
    if !(FILTER_PRODUCT_CATEGORIES_T1.contains cat) then false
    else
      let prod_name := get_en_name r.name
      if pyGet r.meta_group_id == .vNull then
        -- no meta-group id: textual roman-numeral fallback
        !(romanSearch prod_name)
      else
        match pyInt (pyGet r.meta_group_id) with
        | some m => m == FILTER_REQUIRE_META_GROUP_ID_T1
        | none => true  -- unparsable meta-group id: `except: pass` falls through

/-! ## Blueprint records -/

/-- One activity block (`time`, `materials`, `products` are the only fields
read). -/
structure Activity where
  time : Option PyVal := none
  materials : Blob := .absent
  products : Blob := .absent
deriving DecidableEq, Repr

/-- The activities mapping, accessed only via fixed keys; `none` covers an
absent or falsy block. -/
structure Activities where
  manufacturing : Option Activity := none
  copying : Option Activity := none
  invention : Option Activity := none
  research_material : Option Activity := none
  research_time : Option Activity := none
deriving DecidableEq, Repr

instance : Inhabited Activities := ⟨{}⟩

/-- Raw blueprint record fields read by the script. -/
structure Bp where
  blueprint_type_id : Option PyVal := none
  activities : Option Activities := none
  max_production_limit : Option PyVal := none
deriving DecidableEq, Repr

/-- `int(x.get(f, 0) or 0)`: absent or falsy yields 0, otherwise an `int`
conversion that may raise. -/
def intOr0 (v : Option PyVal) : Except Unit Int :=
  match v with
  | none => .ok 0
  | some pv =>
    if pyFalsy pv then .ok 0
    else match pyInt pv with
         | some n => .ok n
         | none => .error ()

/-- `int((acts.get(k) or {}).get("time", 0) or 0)` for an optional activity. -/
def actTime (a : Option Activity) : Except Unit Int :=
  match a with
  | none => .ok 0
  | some act => intOr0 act.time

def actMats (a : Option Activity) : List (Int × Int) :=
  match a with
  | none => []
  | some act => listFromMaterialsBlob act.materials

def actInvProds (a : Option Activity) : List InvProd :=
  match a with
  | none => []
  | some act => listFromInventionProducts act.products

/-! ## Output blueprint entry and the per-blueprint builder -/

inductive Mode where
  | t1
  | full
deriving DecidableEq, Repr

/-- Output Blueprint Entry; an `Option` field is `some` exactly when the
corresponding optional key is present in the emitted JSON object. -/
structure Entry where
  blueprintTypeId : Int
  productTypeId : Int
  productQty : Int
  time : Int
  materials : List (Int × Int)
  maxRuns : Int
  copyTime : Option Int := none
  invTime : Option Int := none
  invMaterials : Option (List (Int × Int)) := none
  invProducts : Option (List InvProd) := none
  rmTime : Option Int := none
  rmMaterials : Option (List (Int × Int)) := none
  rtTime : Option Int := none
  rtMaterials : Option (List (Int × Int)) := none
deriving DecidableEq, Repr

/-- The mode-independent tail of the per-blueprint loop: optional activity
extraction, entry assembly, and the ids added to `needed_type_ids`.  All
fallible conversions produce indistinguishable aborts, so evaluating them
jointly is equivalent to the script's sequential evaluation. -/
def finishBp (bp : Bp) (acts : Activities) (mfg : Activity)
    (bpTid prodTid prodQty : Int) (mats : List (Int × Int)) :
    Except Unit (String × Entry × List Int) :=
  match intOr0 mfg.time, actTime acts.copying, actTime acts.invention,
        actTime acts.research_material, actTime acts.research_time,
        intOr0 bp.max_production_limit with
  | .ok time_s, .ok copy_time, .ok inv_time, .ok rm_time, .ok rt_time,
    .ok max_runs =>
    let inv_mats := actMats acts.invention
    let inv_prods := actInvProds acts.invention
    let rm_mats := actMats acts.research_material
    let rt_mats := actMats acts.research_time
    let invCond : Bool := inv_time ≠ 0 ∧ (inv_mats ≠ [] ∨ inv_prods ≠ [])
    let rmCond : Bool := rm_time ≠ 0 ∨ rm_mats ≠ []
    let rtCond : Bool := rt_time ≠ 0 ∨ rt_mats ≠ []
    let entry : Entry :=
      { blueprintTypeId := bpTid
        productTypeId := prodTid
        productQty := prodQty
        time := time_s
        materials := mats
        maxRuns := max_runs
        copyTime := if copy_time ≠ 0 then some copy_time else none
        invTime := if invCond then some inv_time else none
        invMaterials := if invCond ∧ inv_mats ≠ [] then some inv_mats else none
        invProducts := if invCond ∧ inv_prods ≠ [] then some inv_prods else none
        rmTime := if rmCond then some rm_time else none
        rmMaterials := if rmCond ∧ rm_mats ≠ [] then some rm_mats else none
        rtTime := if rtCond then some rt_time else none
        rtMaterials := if rtCond ∧ rt_mats ≠ [] then some rt_mats else none }
    let ids : List Int :=
      bpTid :: prodTid :: (mats.map (·.1) ++ inv_mats.map (·.1)
        ++ inv_prods.map (·.tid) ++ rm_mats.map (·.1) ++ rt_mats.map (·.1))
    .ok (toString bpTid, entry, ids)
  | _, _, _, _, _, _ => .error ()

/-- One iteration of the main blueprint loop: `.ok none` is `continue`,
`.ok (some _)` is an emitted entry (with the key under which it is stored
and the type ids added to `needed_type_ids`), `.error` is an uncaught
exception aborting the whole run. -/
def processBp (types : String → Option TypeRow) (mode : Mode) (bp : Bp) :
    Except Unit (Option (String × Entry × List Int)) :=
  let acts := bp.activities.getD {}
  match acts.manufacturing with
  | none => .ok none
  | some mfg =>
    match pyInt (pyGet bp.blueprint_type_id) with
    | none => .error ()
    | some bpTid =>
      match types (toString bpTid) with
      | none => .ok none
      | some bpRow =>
        if bpRow.published.getD true = false then .ok none
        else
          match pickFirstProduct mfg.products with
          | .error e => .error e
          | .ok none => .ok none
          | .ok (some (prodTid, prodQty)) =>
            match types (toString prodTid) with
            | none => .ok none
            | some prodRow =>
              if prodRow.published.getD true = false then .ok none
              else if mode = .t1 ∧ include_by_t1_policy prodRow = false then
                .ok none
              else
                match listFromMaterialsBlob mfg.materials with
                | [] => .ok none
                | m :: ms =>
                  (finishBp bp acts mfg bpTid prodTid prodQty (m :: ms)).map some

/-! ## Pipeline: categories, type subset, name index, artifacts -/

/-- Raw category record (only its `name` is read). -/
structure CatRow where
  name : Option NameVal := none
deriving DecidableEq, Repr

/-- The name comparison of the `Blueprint` category scan
(`(c.get("name") or {}).get("en") if isinstance(..., dict) else c.get("name")`). -/
def catNameEn (n : Option NameVal) : Option String :=
  match n with
  | none => none
  | some (.obj e) => e
  | some (.strv s) => some s

/-- The `Blueprint` category id scan; `int(cid)` on a non-numeric key is an
uncaught `ValueError`. -/
def blueprintCategoryId (categories : List (String × CatRow)) :
    Except Unit (Option Int) :=
  match categories.find? (fun kv => catNameEn kv.2.name == some "Blueprint") with
  | none => .ok none
  | some kv =>
    match parseIntChars kv.1.data with
    | some n => .ok (some n)
    | none => .error ()

/-- The blueprint loop over the raw `blueprints` mapping in native
iteration order. -/
def buildEntries (types : String → Option TypeRow) (mode : Mode) :
    List (String × Bp) → Except Unit (List (String × Entry × List Int))
  | [] => .ok []
  | (_, bp) :: rest =>
    match processBp types mode bp with
    | .error e => .error e
    | .ok none => buildEntries types mode rest
    | .ok (some r) =>
      match buildEntries types mode rest with
      | .error e => .error e
      | .ok rs => .ok (r :: rs)

/-- Insert into an ascending duplicate-free list. -/
def insSorted (a : Int) : List Int → List Int
  | [] => [a]
  | b :: t => if a < b then a :: b :: t else if a = b then b :: t else b :: insSorted a t

/-- `sorted(set(l))`: the distinct elements in ascending order. -/
def sortedDedup (l : List Int) : List Int := l.foldr insSorted []

/-- Output Type Entry. -/
structure TypeOut where
  typeId : Int
  name : String
  volume : Rat
  groupId : Int
  categoryId : Int
deriving DecidableEq, Repr

/-- Projection of one referenced type (`int(row.get("type_id", tid))` and
the `int(... or 0)` group/category conversions may raise). -/
def typeOutOf (tid : Int) (r : TypeRow) : Except Unit TypeOut :=
  match (match r.type_id with
         | none => Except.ok tid
         | some v => (match pyInt v with
                      | some n => Except.ok n
                      | none => Except.error ())),
        intOr0 r.group_id, intOr0 r.category_id with
  | .ok tidv, .ok gid, .ok cid =>
    .ok ⟨tidv, get_en_name r.name, packagedVolume r, gid, cid⟩
  | _, _, _ => .error ()

/-- The type-subset loop over `sorted(needed_type_ids)`.  Keys of the
emitted mapping are `str(tid)`; we carry the integer (the string is its
decimal rendering). -/
def buildTypesOut (types : String → Option TypeRow) :
    List Int → Except Unit (List (Int × TypeOut))
  | [] => .ok []
  | tid :: rest =>
    match types (toString tid) with
    | none => buildTypesOut types rest
    | some row =>
      match typeOutOf tid row, buildTypesOut types rest with
      | .ok t, .ok ts => .ok ((tid, t) :: ts)
      | _, _ => .error ()

/-- `name_index.setdefault(k, []).extend(ids)`: append to an existing
binding in place, else add the binding at the end. -/
def idxAppend (k : String) (ids : List Int) :
    List (String × List Int) → List (String × List Int)
  | [] => [(k, ids)]
  | (k2, v) :: t =>
    if k2 = k then (k2, v ++ ids) :: t else (k2, v) :: idxAppend k ids t

/-- Current value of a key in the evolving index (the list object the
snapshot references); absent keys read as `[]`. -/
def lookupIdx (k : String) : List (String × List Int) → List Int
  | [] => []
  | (k2, v) :: t => if k2 = k then v else lookupIdx k t

def idxHasKey (k : String) : List (String × List Int) → Bool
  | [] => false
  | (k2, _) :: t => if k2 = k then true else idxHasKey k t

/-- First pass of the Name Index Builder: normalized name → appended type
ids, in type-subset order (`int(tid_str)` of a key `str(tid)` is `tid`). -/
def nameIndexInit (l : List (Int × TypeOut)) : List (String × List Int) :=
  List.foldl
    (fun idx p =>
      let nm := normalize_name p.2.name
      if nm = "" then idx else idxAppend nm [p.1] idx)
    [] l

def BLUEPRINT_SUFFIX : List Char :=
  [' ', 'b', 'l', 'u', 'e', 'p', 'r', 'i', 'n', 't']

def endsWithBlueprint (nm : String) : Bool :=
  BLUEPRINT_SUFFIX.isSuffixOf nm.data

/-- `nm[: -len(" blueprint")].strip()`. -/
def stripBlueprint (nm : String) : String :=
  String.mk (stripWs (nm.data.take (nm.data.length - BLUEPRINT_SUFFIX.length)))

/-- One iteration of the alias loop.  The snapshot holds references to the
live id lists, so the ids read for `nm` are the key's *current* value. -/
def aliasStep (idx : List (String × List Int)) (nm : String) :
    List (String × List Int) :=
  if endsWithBlueprint nm then
    if stripBlueprint nm ≠ "" then
      idxAppend (stripBlueprint nm) (lookupIdx nm idx) idx
    else idx
  else idx

/-- `for nm, ids in list(name_index.items()): ...` over the snapshot of the
keys present before the loop. -/
def aliasExpand (idx : List (String × List Int)) : List (String × List Int) :=
  List.foldl aliasStep idx (idx.map (·.1))

/-- Final de-dupe and ascending sort of every id list. -/
def finalizeIdx (idx : List (String × List Int)) : List (String × List Int) :=
  idx.map (fun kv => (kv.1, sortedDedup kv.2))

/-- The three output artifacts, minus the `generated` timestamp and the
verbatim `source`/`meta` pass-through. -/
structure Artifacts where
  mode : Mode
  blueprintCategoryId : Option Int
  blueprints : List (String × Entry)
  types : List (Int × TypeOut)
  nameIndex : List (String × List Int)
deriving DecidableEq, Repr

/-- `main` after loading: the whole transformation pipeline.  Association
lists carry the native iteration order of the raw mappings; `.error` is an
uncaught exception (the run aborts with no artifacts). -/
def runPipeline (types : String → Option TypeRow) (bps : List (String × Bp))
    (cats : List (String × CatRow)) (mode : Mode) : Except Unit Artifacts :=
  match blueprintCategoryId cats, buildEntries types mode bps with
  | .ok bcid, .ok entries =>
    let needed := sortedDedup (entries.flatMap (fun r => r.2.2))
    match buildTypesOut types needed with
    | .ok touts =>
      let idx := finalizeIdx (aliasExpand (nameIndexInit touts))
      .ok ⟨mode, bcid, entries.map (fun r => (r.1, r.2.1)), touts, idx⟩
    | .error e => .error e
  | .error e, _ => .error e
  | _, .error e => .error e

/-! ## Properties of the Name Normalizer -/

theorem char_eq_iff_toNat {c d : Char} : c = d ↔ c.toNat = d.toNat := by
  rw [Char.ext_iff, UInt32.ext_iff]
  exact Iff.rfl

theorem toNat_ofNat_valid (n : Nat) (h : n.isValidChar) :
    (Char.ofNat n).toNat = n := by
  simp [Char.ofNat, Char.toNat, Char.ofNatAux, h]
  rfl

theorem isPyWs_false_of_gt32 {c : Char} (h : 32 < c.toNat) : isPyWs c = false := by
  apply Bool.eq_false_iff.mpr
  intro hws
  simp only [isPyWs, Bool.or_eq_true, decide_eq_true_eq] at hws
  rcases hws with ((((rfl | rfl) | rfl) | rfl) | rfl) | rfl <;> exact absurd h (by decide)

theorem char_le_iff_toNat {c d : Char} : c ≤ d ↔ c.toNat ≤ d.toNat := by
  rw [Char.le_def]
  exact Iff.rfl

theorem pyLower_upper_toNat {c : Char} (h1 : 65 ≤ c.toNat) (h2 : c.toNat ≤ 90) :
    (pyLower c).toNat = c.toNat + 32 := by
  have h : 'A' ≤ c ∧ c ≤ 'Z' :=
    ⟨char_le_iff_toNat.mpr h1, char_le_iff_toNat.mpr h2⟩
  unfold pyLower
  rw [if_pos h]
  exact toNat_ofNat_valid _ (Or.inl (by omega))

theorem pyLower_fix (c : Char) (h : ¬('A' ≤ c ∧ c ≤ 'Z')) : pyLower c = c := by
  unfold pyLower
  simp [h]

theorem pyLower_ws (c : Char) : isPyWs (pyLower c) = isPyWs c := by
  by_cases h : 'A' ≤ c ∧ c ≤ 'Z'
  · have h1 : 65 ≤ c.toNat := char_le_iff_toNat.mp h.1
    have h2 : c.toNat ≤ 90 := char_le_iff_toNat.mp h.2
    have ht := pyLower_upper_toNat h1 h2
    rw [isPyWs_false_of_gt32 (by omega), isPyWs_false_of_gt32 (c := c) (by omega)]
  · rw [pyLower_fix c h]

theorem pyLower_idem (c : Char) : pyLower (pyLower c) = pyLower c := by
  by_cases h : 'A' ≤ c ∧ c ≤ 'Z'
  · have h1 : 65 ≤ c.toNat := char_le_iff_toNat.mp h.1
    have h2 : c.toNat ≤ 90 := char_le_iff_toNat.mp h.2
    have ht := pyLower_upper_toNat h1 h2
    apply pyLower_fix
    intro hcon
    have := char_le_iff_toNat.mp hcon.2
    rw [ht] at this
    have hz : ('Z').toNat = 90 := by decide
    omega
  · rw [pyLower_fix c h]
    exact pyLower_fix c h

theorem dropWhile_head_false {p : α → Bool} {l : List α} {c : α}
    (h : (l.dropWhile p).head? = some c) : p c = false := by
  induction l with
  | nil => simp at h
  | cons a t ih =>
    rw [List.dropWhile_cons] at h
    split at h
    · exact ih h
    next hp =>
      simp at h
      subst h
      exact Bool.of_not_eq_true hp

theorem dropWhile_eq_self {p : α → Bool} {l : List α}
    (h : ∀ c, l.head? = some c → p c = false) : l.dropWhile p = l := by
  cases l with
  | nil => rfl
  | cons a t =>
    have := h a rfl
    simp [List.dropWhile_cons, this]

theorem suffix_getLast {l' l : List α} (h : l' <:+ l) (hne : l' ≠ []) :
    l.getLast? = l'.getLast? := by
  obtain ⟨a, rfl⟩ := h
  rw [List.getLast?_append]
  cases h2 : l'.getLast? with
  | none => exact absurd (List.getLast?_eq_none_iff.mp h2) hne
  | some x => rfl

theorem stripWs_head {l : List Char} {c : Char}
    (h : (stripWs l).head? = some c) : isPyWs c = false := by
  unfold stripWs at h
  rw [List.head?_reverse] at h
  have hne : ((l.dropWhile isPyWs).reverse.dropWhile isPyWs) ≠ [] := by
    intro hcon
    rw [hcon] at h
    simp at h
  have hsuf := List.dropWhile_suffix (l := (l.dropWhile isPyWs).reverse) isPyWs
  have heq := suffix_getLast hsuf hne
  rw [h, List.getLast?_reverse] at heq
  exact dropWhile_head_false heq

theorem stripWs_last {l : List Char} {c : Char}
    (h : (stripWs l).getLast? = some c) : isPyWs c = false := by
  unfold stripWs at h
  rw [List.getLast?_reverse] at h
  exact dropWhile_head_false h

theorem stripWs_eq_self {l : List Char}
    (h1 : ∀ c, l.head? = some c → isPyWs c = false)
    (h2 : ∀ c, l.getLast? = some c → isPyWs c = false) : stripWs l = l := by
  unfold stripWs
  rw [dropWhile_eq_self h1]
  rw [dropWhile_eq_self (by intro c hc; rw [List.head?_reverse] at hc; exact h2 c hc)]
  exact List.reverse_reverse l

theorem collapseAux_ws_false {c : Char} {rest : List Char} (h : isPyWs c = true) :
    collapseAux false (c :: rest) = ' ' :: collapseAux true rest := by
  simp [collapseAux, h]

theorem collapseAux_ws_true {c : Char} {rest : List Char} (h : isPyWs c = true) :
    collapseAux true (c :: rest) = collapseAux true rest := by
  simp [collapseAux, h]

theorem collapseAux_nonws {b : Bool} {c : Char} {rest : List Char}
    (h : isPyWs c = false) :
    collapseAux b (c :: rest) = c :: collapseAux false rest := by
  simp [collapseAux, h]

theorem collapseWs_nil : collapseWs [] = [] := rfl

theorem collapseWs_cons_ws {c : Char} {rest : List Char} (h : isPyWs c = true) :
    collapseWs (c :: rest) = ' ' :: collapseAux true rest :=
  collapseAux_ws_false h

theorem collapseWs_cons_nonws {c : Char} {rest : List Char} (h : isPyWs c = false) :
    collapseWs (c :: rest) = c :: collapseWs rest :=
  collapseAux_nonws h

theorem collapseAux_true_head {l : List Char} :
    ∀ c, (collapseAux true l).head? = some c → isPyWs c = false := by
  induction l with
  | nil => intro c hc; simp [collapseAux] at hc
  | cons d rest ih =>
    intro c hc
    cases hd : isPyWs d with
    | true =>
      rw [collapseAux_ws_true hd] at hc
      exact ih c hc
    | false =>
      rw [collapseAux_nonws hd] at hc
      simp at hc
      subst hc
      exact hd

theorem collapseWs_ne_nil {l : List Char} (h : l ≠ []) : collapseWs l ≠ [] := by
  cases l with
  | nil => exact absurd rfl h
  | cons c rest =>
    cases hc : isPyWs c with
    | true => rw [collapseWs_cons_ws hc]; simp
    | false => rw [collapseWs_cons_nonws hc]; simp

theorem collapseWs_head {l : List Char}
    (h : ∀ d, l.head? = some d → isPyWs d = false) :
    (collapseWs l).head? = l.head? := by
  cases l with
  | nil => rfl
  | cons c rest =>
    rw [collapseWs_cons_nonws (h c rfl)]
    rfl

theorem getLast_cons_tail {a : α} {rest : List α} (hr : rest ≠ []) :
    (a :: rest).getLast? = rest.getLast? := by
  cases rest with
  | nil => exact absurd rfl hr
  | cons b t => exact List.getLast?_cons_cons

theorem getLast_mem_of_eq {l : List α} {y : α} (hy : l.getLast? = some y) :
    y ∈ l := by
  have hne : l ≠ [] := by
    intro hcon
    rw [hcon] at hy
    simp at hy
  have h3 := List.getLast?_eq_getLast_of_ne_nil hne
  rw [hy] at h3
  have : y = l.getLast hne := by injection h3
  rw [this]
  exact List.getLast_mem hne

theorem collapseAux_ne_nil_NT {l : List Char} (hne : l ≠ [])
    (h : ∀ x, l.getLast? = some x → isPyWs x = false) :
    ∀ b, collapseAux b l ≠ [] := by
  induction l with
  | nil => exact absurd rfl hne
  | cons a rest ih =>
    intro b
    cases ha : isPyWs a with
    | true =>
      have hrne : rest ≠ [] := by
        intro hcon
        subst hcon
        exact absurd (h a rfl) (by simp [ha])
      have hrNT : ∀ x, rest.getLast? = some x → isPyWs x = false := by
        intro x hx
        exact h x ((getLast_cons_tail hrne).symm ▸ hx)
      cases b with
      | true =>
        rw [collapseAux_ws_true ha]
        exact ih hrne hrNT true
      | false =>
        rw [collapseAux_ws_false ha]
        simp
    | false =>
      rw [collapseAux_nonws ha]
      simp

theorem collapseAux_last {l : List Char}
    (h : ∀ x, l.getLast? = some x → isPyWs x = false) :
    ∀ b c, (collapseAux b l).getLast? = some c → isPyWs c = false := by
  induction l with
  | nil =>
    intro b c hc
    simp [collapseAux] at hc
  | cons a rest ih =>
    intro b c hc
    cases ha : isPyWs a with
    | true =>
      have hrne : rest ≠ [] := by
        intro hcon
        subst hcon
        exact absurd (h a rfl) (by simp [ha])
      have hrNT : ∀ x, rest.getLast? = some x → isPyWs x = false := by
        intro x hx
        exact h x ((getLast_cons_tail hrne).symm ▸ hx)
      cases b with
      | true =>
        rw [collapseAux_ws_true ha] at hc
        exact ih hrNT true c hc
      | false =>
        rw [collapseAux_ws_false ha] at hc
        rw [getLast_cons_tail (collapseAux_ne_nil_NT hrne hrNT true)] at hc
        exact ih hrNT true c hc
    | false =>
      rw [collapseAux_nonws ha] at hc
      cases hrest : rest with
      | nil =>
        subst hrest
        simp [collapseAux] at hc
        subst hc
        exact ha
      | cons b2 t2 =>
        subst hrest
        have hrne : (b2 :: t2) ≠ [] := by simp
        have hrNT : ∀ x, (b2 :: t2).getLast? = some x → isPyWs x = false := by
          intro x hx
          exact h x ((getLast_cons_tail hrne).symm ▸ hx)
        rw [getLast_cons_tail (collapseAux_ne_nil_NT hrne hrNT false)] at hc
        exact ih hrNT false c hc

theorem collapseWs_last {l : List Char}
    (h : ∀ c, l.getLast? = some c → isPyWs c = false) :
    ∀ c, (collapseWs l).getLast? = some c → isPyWs c = false :=
  collapseAux_last h false

theorem collapseAux_ws_space {l : List Char} :
    ∀ b, ∀ c ∈ collapseAux b l, isPyWs c = true → c = ' ' := by
  induction l with
  | nil => intro b c hc; simp [collapseAux] at hc
  | cons a rest ih =>
    intro b c hc hcws
    cases ha : isPyWs a with
    | true =>
      cases b with
      | true =>
        rw [collapseAux_ws_true ha] at hc
        exact ih true c hc hcws
      | false =>
        rw [collapseAux_ws_false ha] at hc
        rcases List.mem_cons.mp hc with rfl | hc
        · rfl
        · exact ih true c hc hcws
    | false =>
      rw [collapseAux_nonws ha] at hc
      rcases List.mem_cons.mp hc with rfl | hc
      · exact absurd hcws (by simp [ha])
      · exact ih false c hc hcws

theorem collapseWs_ws_mem {l : List Char} :
    ∀ c ∈ collapseWs l, isPyWs c = true → c = ' ' :=
  collapseAux_ws_space false

theorem collapseAux_mem {l : List Char} :
    ∀ b, ∀ c ∈ collapseAux b l, c ∈ l ∨ c = ' ' := by
  induction l with
  | nil => intro b c hc; simp [collapseAux] at hc
  | cons a rest ih =>
    intro b c hc
    cases ha : isPyWs a with
    | true =>
      cases b with
      | true =>
        rw [collapseAux_ws_true ha] at hc
        rcases ih true c hc with h1 | h1
        · exact Or.inl (List.mem_cons_of_mem a h1)
        · exact Or.inr h1
      | false =>
        rw [collapseAux_ws_false ha] at hc
        rcases List.mem_cons.mp hc with rfl | hc
        · exact Or.inr rfl
        · rcases ih true c hc with h1 | h1
          · exact Or.inl (List.mem_cons_of_mem a h1)
          · exact Or.inr h1
    | false =>
      rw [collapseAux_nonws ha] at hc
      rcases List.mem_cons.mp hc with rfl | hc
      · exact Or.inl (List.mem_cons_self c rest)
      · rcases ih false c hc with h1 | h1
        · exact Or.inl (List.mem_cons_of_mem a h1)
        · exact Or.inr h1

theorem collapseWs_mem {l : List Char} :
    ∀ c ∈ collapseWs l, c ∈ l ∨ c = ' ' :=
  collapseAux_mem false

theorem collapseAux_chain {l : List Char} :
    ∀ b, List.Chain' (fun a b => ¬(isPyWs a = true ∧ isPyWs b = true))
      (collapseAux b l) := by
  induction l with
  | nil => intro b; simp [collapseAux]
  | cons a rest ih =>
    intro b
    cases ha : isPyWs a with
    | true =>
      cases b with
      | true =>
        rw [collapseAux_ws_true ha]
        exact ih true
      | false =>
        rw [collapseAux_ws_false ha]
        rw [List.chain'_cons']
        refine ⟨?_, ih true⟩
        intro y hy hcon
        rw [collapseAux_true_head y hy] at hcon
        exact Bool.false_ne_true hcon.2
    | false =>
      rw [collapseAux_nonws ha]
      rw [List.chain'_cons']
      refine ⟨?_, ih false⟩
      intro y _ hcon
      rw [ha] at hcon
      exact Bool.false_ne_true hcon.1

theorem collapseWs_chain {l : List Char} :
    List.Chain' (fun a b => ¬(isPyWs a = true ∧ isPyWs b = true)) (collapseWs l) :=
  collapseAux_chain false

theorem collapseAux_true_false {l : List Char}
    (h : ∀ d, l.head? = some d → isPyWs d = false) :
    collapseAux true l = collapseAux false l := by
  cases l with
  | nil => rfl
  | cons d rest =>
    rw [collapseAux_nonws (h d rfl), collapseAux_nonws (h d rfl)]

theorem collapseWs_eq_self {l : List Char}
    (hws : ∀ c ∈ l, isPyWs c = true → c = ' ')
    (hch : List.Chain' (fun a b => ¬(isPyWs a = true ∧ isPyWs b = true)) l) :
    collapseWs l = l := by
  induction l with
  | nil => rfl
  | cons a rest ih =>
    cases ha : isPyWs a with
    | true =>
      have haSp : a = ' ' := hws a (List.mem_cons_self a rest) ha
      have hhd : ∀ d, rest.head? = some d → isPyWs d = false := by
        intro d hd
        have hr := (List.chain'_cons'.mp hch).1 d hd
        by_contra hcon
        exact hr ⟨ha, Bool.of_not_eq_false hcon⟩
      rw [collapseWs_cons_ws ha, collapseAux_true_false hhd, haSp]
      show ' ' :: collapseWs rest = ' ' :: rest
      rw [ih (fun c hc h2 => hws c (List.mem_cons_of_mem a hc) h2)
        (List.chain'_cons'.mp hch).2]
    | false =>
      rw [collapseWs_cons_nonws ha,
        ih (fun c hc h2 => hws c (List.mem_cons_of_mem a hc) h2)
          (List.chain'_cons'.mp hch).2]

theorem map_id_of {f : α → α} {l : List α} (h : ∀ c ∈ l, f c = c) :
    l.map f = l := by
  induction l with
  | nil => rfl
  | cons a t ih =>
    rw [List.map_cons, h a (List.mem_cons_self a t),
      ih (fun c hc => h c (List.mem_cons_of_mem a hc))]

theorem replCh_ws (c : Char) :
    isPyWs (if isCurly c then '\'' else c) = isPyWs c := by
  split
  next h =>
    have : c = '’' ∨ c = '‘' := by
      rcases Bool.or_eq_true_iff.mp h with h1 | h1
      · exact Or.inl (of_decide_eq_true h1)
      · exact Or.inr (of_decide_eq_true h1)
    rcases this with rfl | rfl <;> decide
  · rfl

theorem replCh_no_curly (c : Char) :
    isCurly (if isCurly c then '\'' else c) = false := by
  split
  next h => decide
  next h => exact Bool.eq_false_iff.mpr h

theorem replCh_lower (c : Char) (h : pyLower c = c) :
    pyLower (if isCurly c then '\'' else c) = (if isCurly c then '\'' else c) := by
  split
  · decide
  · exact h

theorem normalize_data (s : String) :
    (normalize_name s).data =
      replaceCurly (collapseWs ((stripWs s.data).map pyLower)) := rfl

theorem normalize_props (s : String) :
    (∀ c ∈ (normalize_name s).data,
        pyLower c = c ∧ isCurly c = false ∧ (isPyWs c = true → c = ' ')) ∧
    (∀ c, (normalize_name s).data.head? = some c → isPyWs c = false) ∧
    (∀ c, (normalize_name s).data.getLast? = some c → isPyWs c = false) ∧
    List.Chain' (fun a b => ¬(isPyWs a = true ∧ isPyWs b = true))
      (normalize_name s).data := by
  rw [normalize_data]
  have hm : ∀ d, ((stripWs s.data).map pyLower).head? = some d → isPyWs d = false := by
    intro d hd
    rw [List.head?_map] at hd
    cases he : (stripWs s.data).head? with
    | none => rw [he] at hd; simp at hd
    | some e =>
      rw [he] at hd
      simp at hd
      rw [← hd, pyLower_ws]
      exact stripWs_head he
  have hmL : ∀ d, ((stripWs s.data).map pyLower).getLast? = some d → isPyWs d = false := by
    intro d hd
    rw [List.getLast?_map] at hd
    cases he : (stripWs s.data).getLast? with
    | none => rw [he] at hd; simp at hd
    | some e =>
      rw [he] at hd
      simp at hd
      rw [← hd, pyLower_ws]
      exact stripWs_last he
  refine ⟨?_, ?_, ?_, ?_⟩
  · intro c hc
    obtain ⟨d, hd, rfl⟩ := List.mem_map.mp hc
    refine ⟨?_, replCh_no_curly d, ?_⟩
    · apply replCh_lower
      rcases collapseWs_mem d hd with h1 | h1
      · obtain ⟨e, _, rfl⟩ := List.mem_map.mp h1
        exact pyLower_idem e
      · rw [h1]; decide
    · intro hws
      rw [replCh_ws] at hws
      have := collapseWs_ws_mem d hd hws
      subst this
      simp [isCurly]
  · intro c hc
    unfold replaceCurly at hc
    rw [List.head?_map] at hc
    cases he : (collapseWs ((stripWs s.data).map pyLower)).head? with
    | none => rw [he] at hc; simp at hc
    | some e =>
      rw [he] at hc
      simp at hc
      rw [← hc, replCh_ws]
      rw [collapseWs_head hm] at he
      exact hm e he
  · intro c hc
    unfold replaceCurly at hc
    rw [List.getLast?_map] at hc
    cases he : (collapseWs ((stripWs s.data).map pyLower)).getLast? with
    | none => rw [he] at hc; simp at hc
    | some e =>
      rw [he] at hc
      simp at hc
      rw [← hc, replCh_ws]
      exact collapseWs_last hmL e he
  · unfold replaceCurly
    rw [List.chain'_map]
    refine List.Chain'.imp ?_ collapseWs_chain
    intro a b hab hcon
    rw [replCh_ws, replCh_ws] at hcon
    exact hab hcon

theorem normalize_empty : normalize_name "" = "" := by
  show String.mk (replaceCurly (collapseWs ((stripWs ("" : String).data).map pyLower))) = ""
  rw [show stripWs ("" : String).data = [] from rfl, List.map_nil, collapseWs_nil]
  rfl

/-- C10: the Name Normalizer is idempotent; the empty string maps to
itself; every output is "lowercase" (fixed by lowercasing), has no
leading/trailing whitespace, no two consecutive whitespace characters, and
no curly single quotes. -/
theorem C10_normalize_name_idempotent (s : String) :
    normalize_name (normalize_name s) = normalize_name s ∧
    normalize_name "" = "" ∧
    (∀ c ∈ (normalize_name s).data, pyLower c = c ∧ isCurly c = false) ∧
    (∀ c, (normalize_name s).data.head? = some c → isPyWs c = false) ∧
    (∀ c, (normalize_name s).data.getLast? = some c → isPyWs c = false) ∧
    List.Chain' (fun a b => ¬(isPyWs a = true ∧ isPyWs b = true))
      (normalize_name s).data := by
  obtain ⟨hmem, hhead, hlast, hchain⟩ := normalize_props s
  refine ⟨?_, normalize_empty, fun c hc => ⟨(hmem c hc).1, (hmem c hc).2.1⟩,
    hhead, hlast, hchain⟩
  have h1 : stripWs (normalize_name s).data = (normalize_name s).data :=
    stripWs_eq_self hhead hlast
  have h2 : ((normalize_name s).data).map pyLower = (normalize_name s).data :=
    map_id_of (fun c hc => (hmem c hc).1)
  have h3 : collapseWs (normalize_name s).data = (normalize_name s).data :=
    collapseWs_eq_self (fun c hc => (hmem c hc).2.2) hchain
  have h4 : replaceCurly (normalize_name s).data = (normalize_name s).data :=
    map_id_of (fun c hc => by rw [if_neg (by simp [(hmem c hc).2.1])])
  show String.mk
      (replaceCurly (collapseWs ((stripWs (normalize_name s).data).map pyLower)))
    = normalize_name s
  rw [h1, h2, h3, h4]

/-! ## Properties of the Materials Projector and Product Selector -/

theorem matEntry_some {r : Row} {m : Int × Int} (h : matEntry r = some m) :
    m.1 ≠ 0 ∧ m.2 ≠ 0 := by
  unfold matEntry at h
  split at h
  next tid qty heq1 heq2 =>
    split at h
    next hc =>
      injection h with h
      subst h
      exact hc
    · exact absurd h (by simp)
  · exact absurd h (by simp)

theorem itemMat_some {i : Item} {m : Int × Int} (h : itemMat i = some m) :
    m.1 ≠ 0 ∧ m.2 ≠ 0 := by
  cases i with
  | notDict => exact absurd h (by simp [itemMat])
  | row r => exact matEntry_some h

theorem listFromMaterialsBlob_mem {b : Blob} {m : Int × Int}
    (h : m ∈ listFromMaterialsBlob b) : m.1 ≠ 0 ∧ m.2 ≠ 0 := by
  cases b with
  | absent => exact absurd h (by simp [listFromMaterialsBlob])
  | other => exact absurd h (by simp [listFromMaterialsBlob])
  | dict l =>
    rw [listFromMaterialsBlob, mem_sortBy] at h
    obtain ⟨kv, _, hkv⟩ := List.mem_filterMap.mp h
    exact itemMat_some hkv
  | list l =>
    rw [listFromMaterialsBlob, mem_sortBy] at h
    obtain ⟨i, _, hi⟩ := List.mem_filterMap.mp h
    exact itemMat_some hi

theorem leTid_total (a b : Int × Int) : leTid a b || leTid b a := by
  unfold leTid
  rcases Int.le_total a.1 b.1 with h | h <;> simp [h]

theorem leTid_trans (a b c : Int × Int) :
    leTid a b → leTid b c → leTid a c := by
  unfold leTid
  intro h1 h2
  exact decide_eq_true (Int.le_trans (of_decide_eq_true h1) (of_decide_eq_true h2))

theorem listFromMaterialsBlob_sorted (b : Blob) :
    (listFromMaterialsBlob b).Pairwise (fun x y => x.1 ≤ y.1) := by
  have hs : ∀ l : List (Int × Int),
      (sortBy leTid l).Pairwise (fun x y => x.1 ≤ y.1) := by
    intro l
    refine (sortBy_pairwise leTid_total leTid_trans l).imp ?_
    intro a b hab
    exact of_decide_eq_true hab
  cases b with
  | absent => simp [listFromMaterialsBlob]
  | other => simp [listFromMaterialsBlob]
  | dict l => exact hs _
  | list l => exact hs _

theorem prodEntry_some {r : Row} {p : Int × Int} (h : prodEntry r = some p) :
    p.1 ≠ 0 ∧ 1 ≤ p.2 := by
  unfold prodEntry at h
  split at h
  next tid qty heq1 heq2 =>
    split at h
    next hc =>
      injection h with h
      subst h
      exact ⟨hc, le_max_left 1 qty⟩
    · exact absurd h (by simp)
  · exact absurd h (by simp)

theorem pickFromKeys_some {l : List (String × Item)} {ks : List String}
    {p : Int × Int} (h : pickFromKeys l ks = some p) : p.1 ≠ 0 ∧ 1 ≤ p.2 := by
  induction ks with
  | nil => exact absurd h (by simp [pickFromKeys])
  | cons k t ih =>
    unfold pickFromKeys at h
    split at h
    next r heq =>
      split at h
      next q hq =>
        injection h with h
        subst h
        exact prodEntry_some hq
      · exact ih h
    · exact ih h

theorem pickList_some {l : List Item} {p : Int × Int}
    (h : pickList l = some p) : p.1 ≠ 0 ∧ 1 ≤ p.2 := by
  induction l with
  | nil => exact absurd h (by simp [pickList])
  | cons i rest ih =>
    cases i with
    | notDict => exact ih h
    | row r =>
      unfold pickList at h
      split at h
      next q hq =>
        injection h with h
        subst h
        exact prodEntry_some hq
      · exact ih h

theorem pickFirstProduct_some {b : Blob} {p : Int × Int}
    (h : pickFirstProduct b = .ok (some p)) : p.1 ≠ 0 ∧ 1 ≤ p.2 := by
  cases b with
  | absent => exact absurd h (by simp [pickFirstProduct])
  | other => exact absurd h (by simp [pickFirstProduct])
  | list l =>
    rw [pickFirstProduct] at h
    injection h with h
    exact pickList_some h
  | dict l =>
    rw [pickFirstProduct] at h
    cases hks : sortedKeys (l.map (·.1)) with
    | error e => rw [hks] at h; exact absurd h (by simp)
    | ok ks =>
      rw [hks] at h
      injection h with h
      exact pickFromKeys_some h

theorem finishBp_ok {bp : Bp} {acts : Activities} {mfg : Activity}
    {bpTid prodTid prodQty : Int} {mats : List (Int × Int)}
    {k : String} {e : Entry} {ids : List Int}
    (h : finishBp bp acts mfg bpTid prodTid prodQty mats = .ok (k, e, ids)) :
    k = toString bpTid ∧ e.materials = mats ∧ e.productQty = prodQty ∧
    e.blueprintTypeId = bpTid ∧ e.productTypeId = prodTid := by
  unfold finishBp at h
  split at h
  · injection h with h
    simp only [Prod.mk.injEq] at h
    obtain ⟨rfl, rfl, rfl⟩ := h
    exact ⟨rfl, rfl, rfl, rfl, rfl⟩
  · exact absurd h (by simp)

theorem processBp_entry_props {types : String → Option TypeRow} {mode : Mode}
    {bp : Bp} {k : String} {e : Entry} {ids : List Int}
    (h : processBp types mode bp = .ok (some (k, e, ids))) :
    e.materials ≠ [] ∧
    e.materials.Pairwise (fun x y => x.1 ≤ y.1) ∧
    (∀ m ∈ e.materials, m.1 ≠ 0 ∧ m.2 ≠ 0) ∧
    1 ≤ e.productQty := by
  simp only [processBp] at h
  split at h
  · exact absurd h (by simp)
  next mfg hmfg =>
    split at h
    · exact absurd h (by simp)
    next bpTid hbpTid =>
      split at h
      · exact absurd h (by simp)
      next bpRow hbpRow =>
        split at h
        · exact absurd h (by simp)
        split at h
        · exact absurd h (by simp)
        · exact absurd h (by simp)
        next prodTid prodQty hpick =>
          split at h
          · exact absurd h (by simp)
          next prodRow hprodRow =>
            split at h
            · exact absurd h (by simp)
            split at h
            · exact absurd h (by simp)
            split at h
            · exact absurd h (by simp)
            next m ms hmats =>
              cases hf : finishBp bp (bp.activities.getD {}) mfg bpTid prodTid
                  prodQty (m :: ms) with
              | error er =>
                rw [hf] at h
                exact absurd h (by simp [Except.map])
              | ok r =>
                rw [hf] at h
                simp only [Except.map] at h
                injection h with h
                injection h with h
                obtain ⟨k2, e2, ids2⟩ := r
                obtain ⟨hk, hm, hq, _, _⟩ := finishBp_ok hf
                simp only [Prod.mk.injEq] at h
                obtain ⟨rfl, rfl, rfl⟩ := h
                refine ⟨by rw [hm]; simp, ?_, ?_, ?_⟩
                · rw [hm, ← hmats]
                  exact listFromMaterialsBlob_sorted mfg.materials
                · intro x hx
                  rw [hm, ← hmats] at hx
                  exact listFromMaterialsBlob_mem hx
                · rw [hq]
                  exact (pickFirstProduct_some hpick).2

theorem buildEntries_mem {types : String → Option TypeRow} {mode : Mode}
    {bps : List (String × Bp)} {rs : List (String × Entry × List Int)}
    (h : buildEntries types mode bps = .ok rs) :
    ∀ r ∈ rs, ∃ bp, processBp types mode bp = .ok (some r) := by
  induction bps generalizing rs with
  | nil =>
    rw [buildEntries] at h
    injection h with h
    subst h
    simp
  | cons p rest ih =>
    obtain ⟨k0, bp0⟩ := p
    rw [buildEntries] at h
    split at h
    · exact absurd h (by simp)
    next hnone => exact ih h
    next r0 hsome =>
      split at h
      · exact absurd h (by simp)
      next rs0 hrest =>
        injection h with h
        subst h
        intro r hr
        rcases List.mem_cons.mp hr with rfl | hr
        · exact ⟨bp0, hsome⟩
        · exact ih hrest r hr

theorem runPipeline_mem {types : String → Option TypeRow}
    {bps : List (String × Bp)} {cats : List (String × CatRow)} {mode : Mode}
    {a : Artifacts} {k : String} {e : Entry}
    (h : runPipeline types bps cats mode = .ok a) (hm : (k, e) ∈ a.blueprints) :
    ∃ bp ids, processBp types mode bp = .ok (some (k, e, ids)) := by
  simp only [runPipeline] at h
  split at h
  next bcid entries hcat hents =>
    split at h
    next touts htouts =>
      injection h with h
      subst h
      simp only [List.mem_map] at hm
      obtain ⟨r, hr, hre⟩ := hm
      obtain ⟨k2, e2, ids2⟩ := r
      simp only [Prod.mk.injEq] at hre
      obtain ⟨rfl, rfl⟩ := hre
      obtain ⟨bp, hbp⟩ := buildEntries_mem hents _ hr
      exact ⟨bp, ids2, hbp⟩
    · exact absurd h (by simp)
  · exact absurd h (by simp)
  · exact absurd h (by simp)

/-- C1 (amended): every emitted blueprint entry has a non-empty
manufacturing materials list sorted in non-decreasing order of type id;
entries with equal type ids are not merged, so strictness and uniqueness
can fail (see the counterexample). -/
theorem C1_materials_nonempty_sorted {types : String → Option TypeRow}
    {bps : List (String × Bp)} {cats : List (String × CatRow)} {mode : Mode}
    {a : Artifacts} (h : runPipeline types bps cats mode = .ok a) :
    ∀ k e, (k, e) ∈ a.blueprints →
      e.materials ≠ [] ∧ e.materials.Pairwise (fun x y => x.1 ≤ y.1) := by
  intro k e hm
  obtain ⟨bp, ids, hbp⟩ := runPipeline_mem h hm
  obtain ⟨h1, h2, _, _⟩ := processBp_entry_props hbp
  exact ⟨h1, h2⟩

/-- C2 (amended): every emitted blueprint entry has product quantity ≥ 1,
and every manufacturing material entry has non-zero (not necessarily
positive) type id and quantity. -/
theorem C2_product_qty_materials_nonzero {types : String → Option TypeRow}
    {bps : List (String × Bp)} {cats : List (String × CatRow)} {mode : Mode}
    {a : Artifacts} (h : runPipeline types bps cats mode = .ok a) :
    ∀ k e, (k, e) ∈ a.blueprints →
      1 ≤ e.productQty ∧ ∀ m ∈ e.materials, m.1 ≠ 0 ∧ m.2 ≠ 0 := by
  intro k e hm
  obtain ⟨bp, ids, hbp⟩ := runPipeline_mem h hm
  obtain ⟨_, _, h3, h4⟩ := processBp_entry_props hbp
  exact ⟨h4, h3⟩

instance {ε α : Type} [DecidableEq ε] [DecidableEq α] : DecidableEq (Except ε α) :=
  fun x y =>
  match x, y with
  | .error e1, .error e2 =>
    if h : e1 = e2 then .isTrue (h ▸ rfl)
    else .isFalse (fun hc => h (Except.error.inj hc))
  | .ok a, .ok b =>
    if h : a = b then .isTrue (h ▸ rfl)
    else .isFalse (fun hc => h (Except.ok.inj hc))
  | .error _, .ok _ => .isFalse (fun hc => Except.noConfusion hc)
  | .ok _, .error _ => .isFalse (fun hc => Except.noConfusion hc)

/-! ## Concrete worlds for counterexamples and witnesses -/

/-- Types mapping with three blank published type rows 100, 5, 34. -/
def tyC1 : String → Option TypeRow := fun s =>
  if s = "100" ∨ s = "5" ∨ s = "34" then some {} else none

/-- A manufacturing activity whose raw materials collection carries two
entries with the same type id 34. -/
def mfgC1 : Activity :=
  { products := .list [.row ⟨some (.vInt 5), some (.vInt 1), none⟩],
    materials := .list [.row ⟨some (.vInt 34), some (.vInt 1), none⟩,
                        .row ⟨some (.vInt 34), some (.vInt 1), none⟩] }

def bpC1 : Bp :=
  { blueprint_type_id := some (.vInt 100),
    activities := some { manufacturing := some mfgC1 } }

def eC1 : Entry :=
  { blueprintTypeId := 100, productTypeId := 5, productQty := 1, time := 0,
    materials := [(34, 1), (34, 1)], maxRuns := 0 }

def blankTypeOut (tid : Int) : TypeOut :=
  { typeId := tid, name := "", volume := 0, groupId := 0, categoryId := 0 }

def artC1 : Artifacts :=
  { mode := .full, blueprintCategoryId := none,
    blueprints := [("100", eC1)],
    types := [(5, blankTypeOut 5), (34, blankTypeOut 34), (100, blankTypeOut 100)],
    nameIndex := [] }

/-- C1 counterexample: a raw materials collection listing type id 34 twice
is emitted as `[[34,1],[34,1]]` — the emitted list has a duplicate type id
and is not strictly ascending, refuting the claim as stated. -/
theorem C1_counterexample :
    runPipeline tyC1 [("100", bpC1)] [] .full = .ok artC1 ∧
    ("100", eC1) ∈ artC1.blueprints ∧
    eC1.materials = [(34, 1), (34, 1)] ∧
    ¬ (eC1.materials.map Prod.fst).Nodup ∧
    ¬ eC1.materials.Pairwise (fun x y => x.1 < y.1) :=
  ⟨by decide, by decide, by decide, by decide, by decide⟩

/-- Witness for the amended C1 theorem at a concrete input. -/
theorem C1_materials_nonempty_sorted_witness :
    eC1.materials ≠ [] ∧ eC1.materials.Pairwise (fun x y => x.1 ≤ y.1) :=
  C1_materials_nonempty_sorted
    (by decide : runPipeline tyC1 [("100", bpC1)] [] .full = .ok artC1)
    "100" eC1 (by decide)

/-- A manufacturing activity with a negative material type id and a
negative quantity: `int()` succeeds and both are truthy, so the entry is
kept. -/
def mfgC2 : Activity :=
  { products := .list [.row ⟨some (.vInt 5), some (.vInt 2), none⟩],
    materials := .list [.row ⟨some (.vInt (-5)), some (.vInt (-3)), none⟩] }

def bpC2 : Bp :=
  { blueprint_type_id := some (.vInt 100),
    activities := some { manufacturing := some mfgC2 } }

def eC2 : Entry :=
  { blueprintTypeId := 100, productTypeId := 5, productQty := 2, time := 0,
    materials := [(-5, -3)], maxRuns := 0 }

def artC2 : Artifacts :=
  { mode := .full, blueprintCategoryId := none,
    blueprints := [("100", eC2)],
    types := [(5, blankTypeOut 5), (100, blankTypeOut 100)],
    nameIndex := [] }

/-- C2 counterexample: the builder only filters *zero* ids/quantities
(Python truthiness), so a material entry `(-5, -3)` is emitted, refuting
"type id > 0 and quantity ≥ 1". -/
theorem C2_counterexample :
    runPipeline tyC1 [("100", bpC2)] [] .full = .ok artC2 ∧
    ("100", eC2) ∈ artC2.blueprints ∧
    eC2.materials = [(-5, -3)] ∧
    ¬ (∀ m ∈ eC2.materials, 0 < m.1 ∧ 1 ≤ m.2) :=
  ⟨by decide, by decide, by decide, by decide⟩

/-- Witness for the amended C2 theorem at a concrete input. -/
theorem C2_product_qty_materials_nonzero_witness :
    1 ≤ eC1.productQty ∧ ∀ m ∈ eC1.materials, m.1 ≠ 0 ∧ m.2 ≠ 0 :=
  C2_product_qty_materials_nonzero
    (by decide : runPipeline tyC1 [("100", bpC1)] [] .full = .ok artC1)
    "100" eC1 (by decide)

/-! ## Mode monotonicity and mode-independence of the entry payload -/

theorem processBp_t1_imp_full {types : String → Option TypeRow} {bp : Bp}
    {r : String × Entry × List Int}
    (h : processBp types .t1 bp = .ok (some r)) :
    processBp types .full bp = .ok (some r) := by
  simp only [processBp] at h ⊢
  split at h
  · exact absurd h (by simp)
  next mfg hmfg =>
    split at h
    · exact absurd h (by simp)
    next bpTid hbpTid =>
      split at h
      · exact absurd h (by simp)
      next bpRow hbpRow =>
        split at h
        next hpub => exact absurd h (by simp)
        next hpub =>
          split at h
          · exact absurd h (by simp)
          · exact absurd h (by simp)
          next prodTid prodQty hpick =>
            split at h
            · exact absurd h (by simp)
            next prodRow hprodRow =>
              split at h
              next hpub2 => exact absurd h (by simp)
              next hpub2 =>
                split at h
                next hguard => exact absurd h (by simp)
                next hguard =>
                  split at h
                  · exact absurd h (by simp)
                  next m ms hmats =>
                    rw [if_neg hpub, if_neg hpub2,
                      if_neg (by simp : ¬(Mode.full = Mode.t1 ∧
                        include_by_t1_policy prodRow = false))]
                    exact h

theorem buildEntries_t1_sublist {types : String → Option TypeRow}
    {bps : List (String × Bp)}
    {l1 l2 : List (String × Entry × List Int)}
    (h1 : buildEntries types .t1 bps = .ok l1)
    (h2 : buildEntries types .full bps = .ok l2) : l1.Sublist l2 := by
  induction bps generalizing l1 l2 with
  | nil =>
    rw [buildEntries] at h1 h2
    injection h1 with h1
    injection h2 with h2
    subst h1; subst h2
    exact List.Sublist.refl []
  | cons p rest ih =>
    obtain ⟨k0, bp0⟩ := p
    rw [buildEntries] at h1 h2
    cases hp1 : processBp types .t1 bp0 with
    | error er => rw [hp1] at h1; exact absurd h1 (by simp)
    | ok o1 =>
      cases o1 with
      | none =>
        rw [hp1] at h1
        cases hp2 : processBp types .full bp0 with
        | error er => rw [hp2] at h2; exact absurd h2 (by simp)
        | ok o2 =>
          cases o2 with
          | none =>
            rw [hp2] at h2
            exact ih h1 h2
          | some r2 =>
            rw [hp2] at h2
            cases hr2 : buildEntries types .full rest with
            | error er => rw [hr2] at h2; exact absurd h2 (by simp)
            | ok rs2 =>
              rw [hr2] at h2
              injection h2 with h2
              subst h2
              exact List.Sublist.cons r2 (ih h1 hr2)
      | some r1 =>
        rw [hp1] at h1
        have hp2 := processBp_t1_imp_full hp1
        rw [hp2] at h2
        cases hr1 : buildEntries types .t1 rest with
        | error er => rw [hr1] at h1; exact absurd h1 (by simp)
        | ok rs1 =>
          cases hr2 : buildEntries types .full rest with
          | error er => rw [hr2] at h2; exact absurd h2 (by simp)
          | ok rs2 =>
            rw [hr1] at h1
            rw [hr2] at h2
            injection h1 with h1
            injection h2 with h2
            subst h1; subst h2
            exact List.Sublist.cons₂ r1 (ih hr1 hr2)

theorem runPipeline_blueprints_eq {types : String → Option TypeRow}
    {bps : List (String × Bp)} {cats : List (String × CatRow)} {mode : Mode}
    {a : Artifacts} (h : runPipeline types bps cats mode = .ok a) :
    ∃ entries, buildEntries types mode bps = .ok entries ∧
      a.blueprints = entries.map (fun r => (r.1, r.2.1)) := by
  simp only [runPipeline] at h
  split at h
  next bcid entries hcat hents =>
    split at h
    next touts htouts =>
      injection h with h
      subst h
      exact ⟨entries, hents, rfl⟩
    · exact absurd h (by simp)
  · exact absurd h (by simp)
  · exact absurd h (by simp)

/-- C4: the set of blueprint keys emitted in `t1` mode is a subset of
those emitted in `full` mode on the same raw input (indeed the whole
(key, entry) pair list is a sublist). -/
theorem C4_mode_monotonic {types : String → Option TypeRow}
    {bps : List (String × Bp)} {cats : List (String × CatRow)}
    {a1 a2 : Artifacts}
    (h1 : runPipeline types bps cats .t1 = .ok a1)
    (h2 : runPipeline types bps cats .full = .ok a2) :
    ∀ k, k ∈ a1.blueprints.map Prod.fst → k ∈ a2.blueprints.map Prod.fst := by
  obtain ⟨e1, he1, hb1⟩ := runPipeline_blueprints_eq h1
  obtain ⟨e2, he2, hb2⟩ := runPipeline_blueprints_eq h2
  intro k hk
  rw [hb1] at hk
  rw [hb2]
  have hsub := buildEntries_t1_sublist he1 he2
  exact ((hsub.map (fun r => (r.1, r.2.1))).map Prod.fst).mem hk

/-- C5 (amended): mode does not affect the payload of an emitted entry at
all — copy/invention/research blocks are captured in `t1` mode exactly as
in `full` mode; the mode only gates which blueprints are included. -/
theorem C5_entry_payload_mode_independent {types : String → Option TypeRow}
    {bp : Bp} {k : String} {e : Entry} {ids : List Int}
    (h : processBp types .t1 bp = .ok (some (k, e, ids))) :
    processBp types .full bp = .ok (some (k, e, ids)) :=
  processBp_t1_imp_full h

/-- A `t1`-eligible product row (category 7, meta-group 1). -/
def prodRowC5 : TypeRow :=
  { name := some (.obj (some "Gadget")),
    category_id := some (.vInt 7), meta_group_id := some (.vInt 1) }

/-- Types: a blueprint type whose name ends in a doubled " blueprint"
qualifier, its eligible product, and one material. -/
def tyC5 : String → Option TypeRow := fun s =>
  if s = "100" then some { name := some (.obj (some "Thing Blueprint Blueprint")) }
  else if s = "5" then some prodRowC5
  else if s = "34" then some { name := some (.obj (some "Tritanium")) }
  else none

def mfgC5 : Activity :=
  { products := .list [.row ⟨some (.vInt 5), some (.vInt 1), none⟩],
    materials := .list [.row ⟨some (.vInt 34), some (.vInt 500), none⟩],
    time := some (.vInt 1200) }

/-- A blueprint that also has a copying activity with a 600 s time. -/
def bpC5 : Bp :=
  { blueprint_type_id := some (.vInt 100),
    activities := some { manufacturing := some mfgC5,
                         copying := some { time := some (.vInt 600) } } }

def eC5 : Entry :=
  { blueprintTypeId := 100, productTypeId := 5, productQty := 1, time := 1200,
    materials := [(34, 500)], maxRuns := 0, copyTime := some 600 }

def typesC5 : List (Int × TypeOut) :=
  [(5, { typeId := 5, name := "Gadget", volume := 0, groupId := 0, categoryId := 7 }),
   (34, { typeId := 34, name := "Tritanium", volume := 0, groupId := 0, categoryId := 0 }),
   (100, { typeId := 100, name := "Thing Blueprint Blueprint", volume := 0,
           groupId := 0, categoryId := 0 })]

def idxC5 : List (String × List Int) :=
  [("gadget", [5]), ("tritanium", [34]),
   ("thing blueprint blueprint", [100]), ("thing blueprint", [100])]

def artC5 : Artifacts :=
  { mode := .t1, blueprintCategoryId := none, blueprints := [("100", eC5)],
    types := typesC5, nameIndex := idxC5 }

def artC5full : Artifacts :=
  { mode := .full, blueprintCategoryId := none, blueprints := [("100", eC5)],
    types := typesC5, nameIndex := idxC5 }

/-- C5 counterexample: the optional-activity extraction is not guarded by
the mode, so a `t1` run emits `copyTime` for an eligible blueprint with a
copying activity, refuting "in t1 mode no emitted entry contains any
optional activity block". -/
theorem C5_counterexample :
    runPipeline tyC5 [("100", bpC5)] [] .t1 = .ok artC5 ∧
    ("100", eC5) ∈ artC5.blueprints ∧
    eC5.copyTime = some 600 :=
  ⟨by decide, by decide, by decide⟩

/-- Witness for the amended C5 theorem at a concrete input. -/
theorem C5_entry_payload_mode_independent_witness :
    processBp tyC5 .full bpC5 = .ok (some ("100", eC5, [100, 5, 34])) :=
  C5_entry_payload_mode_independent
    (by decide : processBp tyC5 .t1 bpC5 = .ok (some ("100", eC5, [100, 5, 34])))

/-- Witness for C4 at a concrete input. -/
theorem C4_mode_monotonic_witness :
    "100" ∈ artC5full.blueprints.map Prod.fst :=
  C4_mode_monotonic
    (by decide : runPipeline tyC5 [("100", bpC5)] [] .t1 = .ok artC5)
    (by decide : runPipeline tyC5 [("100", bpC5)] [] .full = .ok artC5full)
    "100" (by decide)

/-! ## The t1 Eligibility Classifier (C6) -/

/-- A product row carrying an unparsable meta-group id. -/
def rowC6 : TypeRow :=
  { name := some (.obj (some "Gadget")),
    category_id := some (.vInt 7), meta_group_id := some (.vStr "x") }

/-- C6 counterexample: a record carrying the meta-group id `"x"` (≠ 1, and
not even parsable as 1) is *accepted*: the `int()` failure is swallowed by
`except: pass` and the function falls through to `return True`. -/
theorem C6_counterexample :
    include_by_t1_policy rowC6 = true ∧
    rowC6.meta_group_id = some (.vStr "x") ∧
    pyInt (.vStr "x") ≠ some 1 :=
  ⟨by decide, by decide, by decide⟩

/-- C6 (amended): an accepted record has a category id parsing into the
allow-set {7, 8, 18}; and a carried meta-group id can only have been
accepted if it parses to 1 — or fails to parse as an integer at all, in
which case the check (and the roman-numeral fallback) is skipped. -/
theorem C6_t1_policy_category_and_meta {r : TypeRow}
    (h : include_by_t1_policy r = true) :
    (∃ c, pyInt (pyGet r.category_id) = some c ∧ (c = 7 ∨ c = 8 ∨ c = 18)) ∧
    (∀ v, r.meta_group_id = some v → v ≠ .vNull →
      ∀ m, pyInt v = some m → m = 1) := by
  unfold include_by_t1_policy at h
  split at h
  · exact absurd h (by simp)
  next cat hcat =>
    split at h
    · exact absurd h (by simp)
    next hcontains =>
      constructor
      · refine ⟨cat, hcat, ?_⟩
        simp [FILTER_PRODUCT_CATEGORIES_T1] at hcontains
        tauto
      · intro v hv hvnull m hm
        split at h
        next hnull =>
          exact absurd (by rw [pyGet, hv] at hnull; exact of_decide_eq_true hnull)
            hvnull
        next hnull =>
          rw [pyGet, hv] at h
          split at h
          next m2 hm2 =>
            rw [Option.getD_some] at hm2
            rw [hm2] at hm
            injection hm with hm
            subst hm
            exact of_decide_eq_true h
          next hm2 =>
            rw [Option.getD_some] at hm2
            rw [hm2] at hm
            exact absurd hm (by simp)

/-- An eligible row: category 8, meta-group 1. -/
def rowC6b : TypeRow :=
  { name := some (.obj (some "Ammo")),
    category_id := some (.vInt 8), meta_group_id := some (.vInt 1) }

/-- Witness for the amended C6 theorem at a concrete record. -/
theorem C6_t1_policy_witness :
    (∃ c, pyInt (pyGet rowC6b.category_id) = some c ∧ (c = 7 ∨ c = 8 ∨ c = 18)) ∧
    (∀ v, rowC6b.meta_group_id = some v → v ≠ .vNull →
      ∀ m, pyInt v = some m → m = 1) :=
  C6_t1_policy_category_and_meta (by decide : include_by_t1_policy rowC6b = true)

/-! ## Product Selector determinism (C7) -/

theorem leNumKey_total (a b : String) : leNumKey a b || leNumKey b a := by
  unfold leNumKey
  rcases Nat.le_total (digitsVal a.data) (digitsVal b.data) with h | h <;> simp [h]

theorem leNumKey_trans (a b c : String) :
    leNumKey a b → leNumKey b c → leNumKey a c := by
  unfold leNumKey
  intro h1 h2
  exact decide_eq_true (Nat.le_trans (of_decide_eq_true h1) (of_decide_eq_true h2))

theorem leStrKey_total (a b : String) : leStrKey a b || leStrKey b a := by
  unfold leStrKey
  rcases le_total a b with h | h <;> simp [h]

theorem leStrKey_trans (a b c : String) :
    leStrKey a b → leStrKey b c → leStrKey a c := by
  unfold leStrKey
  intro h1 h2
  exact decide_eq_true (le_trans (of_decide_eq_true h1) (of_decide_eq_true h2))

theorem eq_of_perm_of_pairwise {le : α → α → Bool} {l1 l2 : List α}
    (hperm : l1.Perm l2)
    (h1 : l1.Pairwise (fun a b => le a b = true))
    (h2 : l2.Pairwise (fun a b => le a b = true))
    (hanti : ∀ a, a ∈ l1 → ∀ b, b ∈ l1 → le a b = true → le b a = true → a = b) :
    l1 = l2 := by
  induction l1 generalizing l2 with
  | nil => exact hperm.nil_eq
  | cons a t1 ih =>
    cases l2 with
    | nil => exact absurd hperm.symm.nil_eq (by simp)
    | cons b t2 =>
      have hab : a = b := by
        by_contra hne
        have hainl2 : a ∈ b :: t2 := hperm.mem_iff.mp (List.mem_cons_self a t1)
        have hbinl1 : b ∈ a :: t1 := hperm.mem_iff.mpr (List.mem_cons_self b t2)
        have hat2 : a ∈ t2 := (List.mem_cons.mp hainl2).resolve_left hne
        have hbt1 : b ∈ t1 :=
          (List.mem_cons.mp hbinl1).resolve_left (fun hh => hne hh.symm)
        have h1ab : le a b := (List.pairwise_cons.mp h1).1 b hbt1
        have h2ba : le b a := (List.pairwise_cons.mp h2).1 a hat2
        exact hne (hanti a (List.mem_cons_self a t1) b
          (List.mem_cons_of_mem a hbt1) h1ab h2ba)
      subst hab
      have ht : t1.Perm t2 := hperm.cons_inv
      rw [ih ht (List.pairwise_cons.mp h1).2 (List.pairwise_cons.mp h2).2
        (fun x hx y hy => hanti x (List.mem_cons_of_mem a hx) y
          (List.mem_cons_of_mem a hy))]

theorem sortedKeys_perm_eq {ks1 ks2 : List String} (hperm : ks1.Perm ks2)
    (hinj : ∀ a ∈ ks1, ∀ b ∈ ks1, prodKey a = prodKey b → a = b) :
    sortedKeys ks1 = sortedKeys ks2 := by
  have hall : ∀ p : String → Bool, ks1.all p = ks2.all p := by
    intro p
    cases h1 : ks1.all p with
    | true =>
      exact (List.all_eq_true.mpr
        (fun x hx => List.all_eq_true.mp h1 x (hperm.mem_iff.mpr hx))).symm
    | false =>
      cases h2 : ks2.all p with
      | false => rfl
      | true =>
        exact absurd (List.all_eq_true.mpr
          (fun x hx => List.all_eq_true.mp h2 x (hperm.mem_iff.mp hx)))
          (by simp [h1])
  unfold sortedKeys
  rw [← hall isDigitStr, ← hall (fun s => !isDigitStr s)]
  by_cases hd : ks1.all isDigitStr = true
  · rw [if_pos hd, if_pos hd]
    have hsorted := eq_of_perm_of_pairwise
      (((sortBy_perm leNumKey ks1).trans hperm).trans (sortBy_perm leNumKey ks2).symm)
      (sortBy_pairwise leNumKey_total leNumKey_trans ks1)
      (sortBy_pairwise leNumKey_total leNumKey_trans ks2)
      ?_
    · rw [hsorted]
    · intro a ha b hb hab hba
      have ha1 : a ∈ ks1 := mem_sortBy.mp ha
      have hb1 : b ∈ ks1 := mem_sortBy.mp hb
      have hval : digitsVal a.data = digitsVal b.data :=
        Nat.le_antisymm (of_decide_eq_true hab) (of_decide_eq_true hba)
      apply hinj a ha1 b hb1
      unfold prodKey
      rw [if_pos (List.all_eq_true.mp hd a ha1),
        if_pos (List.all_eq_true.mp hd b hb1), hval]
  · rw [if_neg hd, if_neg hd]
    by_cases hs : ks1.all (fun s => !isDigitStr s) = true
    · rw [if_pos hs, if_pos hs]
      have hsorted := eq_of_perm_of_pairwise
        (((sortBy_perm leStrKey ks1).trans hperm).trans (sortBy_perm leStrKey ks2).symm)
        (sortBy_pairwise leStrKey_total leStrKey_trans ks1)
        (sortBy_pairwise leStrKey_total leStrKey_trans ks2)
        (fun a _ b _ hab hba =>
          le_antisymm (of_decide_eq_true hab) (of_decide_eq_true hba))
      rw [hsorted]
    · rw [if_neg hs, if_neg hs]

theorem assocFind_perm {l1 l2 : List (String × Item)} (hperm : l1.Perm l2)
    (hnodup : (l1.map (·.1)).Nodup) (k : String) :
    assocFind k l1 = assocFind k l2 := by
  induction hperm with
  | nil => rfl
  | cons x p ih =>
    obtain ⟨k1, v1⟩ := x
    rw [assocFind, assocFind]
    by_cases hk : (k1 == k) = true
    · rw [if_pos hk, if_pos hk]
    · rw [if_neg hk, if_neg hk]
      exact ih (List.nodup_cons.mp (by simpa using hnodup)).2
  | swap x y t =>
    obtain ⟨kx, vx⟩ := x
    obtain ⟨ky, vy⟩ := y
    have hxy : ky ≠ kx := by
      simp only [List.map_cons, List.nodup_cons] at hnodup
      intro hc
      exact hnodup.1 (List.mem_cons.mpr (Or.inl hc))
    rw [assocFind, assocFind, assocFind, assocFind]
    by_cases hky : (ky == k) = true
    · have hkx : ¬(kx == k) = true := by
        simp only [beq_iff_eq] at hky ⊢
        rw [← hky]
        exact fun hc => hxy hc.symm
      rw [if_pos hky, if_neg hkx, if_pos hky]
    · by_cases hkx : (kx == k) = true
      · rw [if_neg hky, if_pos hkx, if_pos hkx]
      · rw [if_neg hky, if_neg hkx, if_neg hkx, if_neg hky]
  | trans p1 p2 ih1 ih2 =>
    rw [ih1 hnodup, ih2 (((p1.map (·.1)).nodup_iff).mp hnodup)]

theorem pickFromKeys_congr {l1 l2 : List (String × Item)}
    (h : ∀ k, assocFind k l1 = assocFind k l2) (ks : List String) :
    pickFromKeys l1 ks = pickFromKeys l2 ks := by
  induction ks with
  | nil => rfl
  | cons k t ih =>
    unfold pickFromKeys
    rw [h k, ih]

/-- C7 (amended): on a mapping-shaped products collection whose keys are
unambiguous (pairwise distinct sort keys) and do not mix purely-numeric
with non-numeric keys, the Product Selector is total, deterministic, and
independent of the mapping's native iteration order, and any selected pair
has a *non-zero* (not necessarily positive) type id and quantity ≥ 1.  On
mixed key sets the key sort raises `TypeError` and the run aborts (see the
counterexample). -/
theorem C7_product_selector_deterministic (l : List (String × Item))
    (hnodup : (l.map (·.1)).Nodup)
    (hinj : ∀ a ∈ l.map (·.1), ∀ b ∈ l.map (·.1), prodKey a = prodKey b → a = b)
    (hpure : (∀ k ∈ l.map (·.1), isDigitStr k = true) ∨
             (∀ k ∈ l.map (·.1), isDigitStr k = false)) :
    (∃ res, pickFirstProduct (.dict l) = .ok res) ∧
    (∀ l2, l.Perm l2 → pickFirstProduct (.dict l2) = pickFirstProduct (.dict l)) ∧
    (∀ t q, pickFirstProduct (.dict l) = .ok (some (t, q)) → t ≠ 0 ∧ 1 ≤ q) := by
  refine ⟨?_, ?_, ?_⟩
  · rw [pickFirstProduct]
    unfold sortedKeys
    rcases hpure with hp | hp
    · rw [if_pos (List.all_eq_true.mpr hp)]
      exact ⟨_, rfl⟩
    · by_cases hd : (l.map (·.1)).all isDigitStr = true
      · rw [if_pos hd]
        exact ⟨_, rfl⟩
      · rw [if_neg hd, if_pos (List.all_eq_true.mpr (by simpa using hp))]
        exact ⟨_, rfl⟩
  · intro l2 hperm
    rw [pickFirstProduct, pickFirstProduct]
    have hkeys : (l.map (·.1)).Perm (l2.map (·.1)) := hperm.map (·.1)
    rw [← sortedKeys_perm_eq hkeys hinj]
    cases hks : sortedKeys (l.map (·.1)) with
    | error er => rfl
    | ok ks =>
      show Except.ok (pickFromKeys l2 ks) = Except.ok (pickFromKeys l ks)
      rw [pickFromKeys_congr
        (fun k => (assocFind_perm hperm hnodup k).symm) ks]
  · intro t q h
    exact pickFirstProduct_some h

/-- A mapping-shaped products collection mixing the numeric key "1" with
the non-numeric key "a". -/
def prodsC7 : List (String × Item) :=
  [("1", .row ⟨some (.vInt 10), none, none⟩),
   ("a", .row ⟨some (.vInt 20), none, none⟩)]

/-- C7 counterexample: on a key set mixing numeric and non-numeric keys
the selector aborts (CPython `sorted` raises `TypeError` comparing `int`
with `str`), refuting "this selection never aborts for any key set". -/
theorem C7_counterexample :
    pickFirstProduct (.dict prodsC7) = .error () :=
  by decide

/-- All-numeric two-key products mapping (keys "2" and "10"). -/
def prodsC7w : List (String × Item) :=
  [("2", .row ⟨some (.vInt 10), none, none⟩),
   ("10", .row ⟨some (.vInt 20), none, none⟩)]

/-- Witness for the amended C7 theorem at a concrete mapping. -/
theorem C7_product_selector_deterministic_witness :
    (∃ res, pickFirstProduct (.dict prodsC7w) = .ok res) ∧
    (∀ l2, prodsC7w.Perm l2 →
      pickFirstProduct (.dict l2) = pickFirstProduct (.dict prodsC7w)) ∧
    (∀ t q, pickFirstProduct (.dict prodsC7w) = .ok (some (t, q)) →
      t ≠ 0 ∧ 1 ≤ q) :=
  C7_product_selector_deterministic prodsC7w (by decide) (by decide)
    (Or.inl (by decide))

/-! ## Recoverable-skip granularity (C8) -/

/-- Product parse of one element of a list-shaped products collection
(the loop body of `_pick_first_product`). -/
def itemProd : Item → Option (Int × Int)
  | .notDict => none
  | .row r => prodEntry r

/-- C8 (amended): a malformed *entry* really is dropped at entry
granularity — inserting an entry that fails to parse anywhere into a
materials or products list leaves the projection and the product
selection unchanged. -/
theorem C8_malformed_entry_dropped (xs ys : List Item) (bad : Item)
    (h1 : itemMat bad = none) (h2 : itemProd bad = none) :
    listFromMaterialsBlob (.list (xs ++ bad :: ys)) =
      listFromMaterialsBlob (.list (xs ++ ys)) ∧
    pickList (xs ++ bad :: ys) = pickList (xs ++ ys) := by
  constructor
  · rw [listFromMaterialsBlob, listFromMaterialsBlob]
    rw [List.filterMap_append, List.filterMap_append, List.filterMap_cons, h1]
  · induction xs with
    | nil =>
      rw [List.nil_append, List.nil_append]
      cases bad with
      | notDict => rw [pickList]
      | row r =>
        rw [pickList]
        rw [itemProd] at h2
        rw [h2]
    | cons i t ih =>
      cases i with
      | notDict =>
        rw [List.cons_append, List.cons_append, pickList, pickList]
        exact ih
      | row r =>
        rw [List.cons_append, List.cons_append, pickList, pickList]
        cases hr : prodEntry r with
        | some p => rfl
        | none => exact ih

/-- A blueprint record with a manufacturing activity but *no*
`blueprint_type_id`: `int(bp.get("blueprint_type_id"))` raises an uncaught
`TypeError`. -/
def bpC8 : Bp :=
  { activities := some { manufacturing := some mfgC1 } }

/-- C8 counterexample: the very defect the claim uses as its example (a
blueprint record with an absent blueprint type id) aborts the entire run
with no artifacts, instead of dropping that one record. -/
theorem C8_counterexample :
    runPipeline tyC1 [("x", bpC8)] [] .full = .error () :=
  by decide

/-- Witness for the amended C8 theorem at a concrete malformed entry. -/
theorem C8_malformed_entry_dropped_witness :
    listFromMaterialsBlob (.list ([.row ⟨some (.vInt 34), some (.vInt 1), none⟩]
        ++ .notDict :: [.row ⟨some (.vInt 35), some (.vInt 2), none⟩])) =
      listFromMaterialsBlob (.list ([.row ⟨some (.vInt 34), some (.vInt 1), none⟩]
        ++ [.row ⟨some (.vInt 35), some (.vInt 2), none⟩])) ∧
    pickList ([.row ⟨some (.vInt 34), some (.vInt 1), none⟩]
        ++ .notDict :: [.row ⟨some (.vInt 35), some (.vInt 2), none⟩]) =
      pickList ([.row ⟨some (.vInt 34), some (.vInt 1), none⟩]
        ++ [.row ⟨some (.vInt 35), some (.vInt 2), none⟩]) :=
  C8_malformed_entry_dropped
    [.row ⟨some (.vInt 34), some (.vInt 1), none⟩]
    [.row ⟨some (.vInt 35), some (.vInt 2), none⟩]
    .notDict (by decide) (by decide)

/-! ## `sorted(set(...))` lemmas -/

theorem insSorted_mem {x : Int} {l : List Int} {a : Int} :
    a ∈ insSorted x l ↔ a = x ∨ a ∈ l := by
  induction l with
  | nil => simp [insSorted]
  | cons b t ih =>
    rw [insSorted]
    by_cases h1 : x < b
    · rw [if_pos h1]
      simp
    · rw [if_neg h1]
      by_cases h2 : x = b
      · rw [if_pos h2]
        subst h2
        simp
      · rw [if_neg h2]
        simp only [List.mem_cons, ih]
        tauto

theorem insSorted_pairwise {x : Int} {l : List Int}
    (h : l.Pairwise (· < ·)) : (insSorted x l).Pairwise (· < ·) := by
  induction l with
  | nil => simp [insSorted]
  | cons b t ih =>
    rw [List.pairwise_cons] at h
    obtain ⟨hb, ht⟩ := h
    rw [insSorted]
    by_cases h1 : x < b
    · rw [if_pos h1]
      refine List.Pairwise.cons ?_ (List.Pairwise.cons hb ht)
      intro y hy
      rcases List.mem_cons.mp hy with rfl | hy
      · exact h1
      · exact lt_trans h1 (hb y hy)
    · rw [if_neg h1]
      by_cases h2 : x = b
      · rw [if_pos h2]
        exact List.Pairwise.cons hb ht
      · rw [if_neg h2]
        refine List.Pairwise.cons ?_ (ih ht)
        intro y hy
        rcases insSorted_mem.mp hy with rfl | hy
        · omega
        · exact hb y hy

theorem sortedDedup_mem {l : List Int} {a : Int} :
    a ∈ sortedDedup l ↔ a ∈ l := by
  induction l with
  | nil => simp [sortedDedup]
  | cons b t ih =>
    show a ∈ insSorted b (sortedDedup t) ↔ _
    rw [insSorted_mem, ih]
    simp

theorem sortedDedup_pairwise (l : List Int) :
    (sortedDedup l).Pairwise (· < ·) := by
  induction l with
  | nil => simp [sortedDedup]
  | cons b t ih => exact insSorted_pairwise ih

theorem sorted_lt_eq_of_mem_iff {l1 l2 : List Int}
    (h1 : l1.Pairwise (· < ·)) (h2 : l2.Pairwise (· < ·))
    (h : ∀ a, a ∈ l1 ↔ a ∈ l2) : l1 = l2 := by
  induction l1 generalizing l2 with
  | nil =>
    cases l2 with
    | nil => rfl
    | cons b t => exact absurd ((h b).mpr (List.mem_cons_self b t)) (by simp)
  | cons a t1 ih =>
    cases l2 with
    | nil => exact absurd ((h a).mp (List.mem_cons_self a t1)) (by simp)
    | cons b t2 =>
      rw [List.pairwise_cons] at h1 h2
      have hab : a = b := by
        rcases List.mem_cons.mp ((h a).mp (List.mem_cons_self a t1)) with h3 | h3
        · exact h3
        · rcases List.mem_cons.mp ((h b).mpr (List.mem_cons_self b t2)) with h4 | h4
          · exact h4.symm
          · have := h1.1 b h4
            have := h2.1 a h3
            omega
      subst hab
      have hmem : ∀ x, x ∈ t1 ↔ x ∈ t2 := by
        intro x
        constructor
        · intro hx
          rcases List.mem_cons.mp ((h x).mp (List.mem_cons_of_mem a hx)) with rfl | h3
          · exact absurd (h1.1 x hx) (by omega)
          · exact h3
        · intro hx
          rcases List.mem_cons.mp ((h x).mpr (List.mem_cons_of_mem a hx)) with rfl | h3
          · exact absurd (h2.1 x hx) (by omega)
          · exact h3
      rw [ih h1.2 h2.2 hmem]

theorem sortedDedup_congr {l1 l2 : List Int} (h : ∀ a, a ∈ l1 ↔ a ∈ l2) :
    sortedDedup l1 = sortedDedup l2 :=
  sorted_lt_eq_of_mem_iff (sortedDedup_pairwise l1) (sortedDedup_pairwise l2)
    (fun a => by rw [sortedDedup_mem, sortedDedup_mem]; exact h a)

/-! ## Name Index Builder lemmas (C9) -/

theorem idxAppend_lookup (k : String) (ids : List Int)
    (idx : List (String × List Int)) (k2 : String) :
    lookupIdx k2 (idxAppend k ids idx) =
      if k2 = k then lookupIdx k2 idx ++ ids else lookupIdx k2 idx := by
  induction idx with
  | nil =>
    simp only [idxAppend, lookupIdx]
    by_cases h : k2 = k
    · subst h
      simp
    · rw [if_neg (fun hc => h hc.symm), if_neg h]
  | cons p t ih =>
    obtain ⟨kp, vp⟩ := p
    simp only [idxAppend]
    by_cases hp : kp = k
    · rw [if_pos hp]
      simp only [lookupIdx]
      by_cases h2 : kp = k2
      · rw [if_pos h2, if_pos h2, if_pos (h2.symm.trans hp)]
      · rw [if_neg h2, if_neg h2, if_neg (fun hc => h2 (hp.trans hc.symm))]
    · rw [if_neg hp]
      simp only [lookupIdx]
      by_cases h2 : kp = k2
      · rw [if_pos h2, if_pos h2, if_neg (fun hc => hp (h2.trans hc))]
      · rw [if_neg h2, if_neg h2, ih]

theorem idxAppend_hasKey (k : String) (ids : List Int)
    (idx : List (String × List Int)) (k2 : String) :
    idxHasKey k2 (idxAppend k ids idx) =
      (idxHasKey k2 idx || (k2 == k)) := by
  induction idx with
  | nil =>
    simp only [idxAppend, idxHasKey]
    by_cases h : k2 = k
    · subst h
      simp
    · rw [if_neg (fun hc => h hc.symm)]
      simp [h]
  | cons p t ih =>
    obtain ⟨kp, vp⟩ := p
    simp only [idxAppend]
    by_cases hp : kp = k
    · rw [if_pos hp]
      simp only [idxHasKey]
      by_cases h2 : kp = k2
      · rw [if_pos h2]
        simp
      · rw [if_neg h2]
        have hk2k : (k2 == k) = false := by
          simp only [beq_eq_false_iff_ne, ne_eq]
          exact fun hc => h2 (hp.trans hc.symm)
        rw [hk2k]
        simp
    · rw [if_neg hp]
      simp only [idxHasKey]
      by_cases h2 : kp = k2
      · rw [if_pos h2]
        simp [h2]
      · rw [if_neg h2, ih, if_neg h2]

theorem aliasStep_lookup_grow (idx : List (String × List Int)) (nm k : String)
    {i : Int} (h : i ∈ lookupIdx k idx) : i ∈ lookupIdx k (aliasStep idx nm) := by
  unfold aliasStep
  split
  · split
    · rw [idxAppend_lookup]
      split
      · exact List.mem_append_left _ h
      · exact h
    · exact h
  · exact h

theorem aliasStep_hasKey_grow (idx : List (String × List Int)) (nm k : String)
    (h : idxHasKey k idx = true) : idxHasKey k (aliasStep idx nm) = true := by
  unfold aliasStep
  split
  · split
    · rw [idxAppend_hasKey, h]
      rfl
    · exact h
  · exact h

theorem foldl_alias_lookup_grow (ks : List String)
    (idx : List (String × List Int)) (k : String) {i : Int}
    (h : i ∈ lookupIdx k idx) :
    i ∈ lookupIdx k (List.foldl aliasStep idx ks) := by
  induction ks generalizing idx with
  | nil => exact h
  | cons nm t ih => exact ih _ (aliasStep_lookup_grow idx nm k h)

theorem foldl_alias_hasKey_grow (ks : List String)
    (idx : List (String × List Int)) (k : String)
    (h : idxHasKey k idx = true) :
    idxHasKey k (List.foldl aliasStep idx ks) = true := by
  induction ks generalizing idx with
  | nil => exact h
  | cons nm t ih => exact ih _ (aliasStep_hasKey_grow idx nm k h)

theorem aliasStep_suffix_lookup (idx : List (String × List Int)) {nm : String}
    (hnm : endsWithBlueprint nm = true →
      endsWithBlueprint (stripBlueprint nm) = false)
    {k : String} (hk : endsWithBlueprint k = true) :
    lookupIdx k (aliasStep idx nm) = lookupIdx k idx := by
  unfold aliasStep
  split
  next hends =>
    split
    · rw [idxAppend_lookup,
        if_neg (fun hc : k = stripBlueprint nm => by
          rw [hc] at hk
          rw [hnm hends] at hk
          exact Bool.false_ne_true hk)]
    · rfl
  · rfl

theorem aliasStep_suffix_hasKey (idx : List (String × List Int)) {nm : String}
    (hnm : endsWithBlueprint nm = true →
      endsWithBlueprint (stripBlueprint nm) = false)
    {k : String} (hk : endsWithBlueprint k = true) :
    idxHasKey k (aliasStep idx nm) = idxHasKey k idx := by
  unfold aliasStep
  split
  next hends =>
    split
    · rw [idxAppend_hasKey,
        show (k == stripBlueprint nm) = false from by
          simp only [beq_eq_false_iff_ne, ne_eq]
          intro hc
          rw [hc] at hk
          rw [hnm hends] at hk
          exact Bool.false_ne_true hk]
      simp
    · rfl
  · rfl

theorem foldl_alias_suffix_lookup {ks : List String}
    (idx : List (String × List Int))
    (hks : ∀ nm ∈ ks, endsWithBlueprint nm = true →
      endsWithBlueprint (stripBlueprint nm) = false)
    {k : String} (hk : endsWithBlueprint k = true) :
    lookupIdx k (List.foldl aliasStep idx ks) = lookupIdx k idx := by
  induction ks generalizing idx with
  | nil => rfl
  | cons nm t ih =>
    show lookupIdx k (List.foldl aliasStep (aliasStep idx nm) t) = _
    rw [ih _ (fun x hx => hks x (List.mem_cons_of_mem nm hx)),
      aliasStep_suffix_lookup idx (hks nm (List.mem_cons_self nm t)) hk]

theorem foldl_alias_suffix_hasKey {ks : List String}
    (idx : List (String × List Int))
    (hks : ∀ nm ∈ ks, endsWithBlueprint nm = true →
      endsWithBlueprint (stripBlueprint nm) = false)
    {k : String} (hk : endsWithBlueprint k = true) :
    idxHasKey k (List.foldl aliasStep idx ks) = idxHasKey k idx := by
  induction ks generalizing idx with
  | nil => rfl
  | cons nm t ih =>
    show idxHasKey k (List.foldl aliasStep (aliasStep idx nm) t) = _
    rw [ih _ (fun x hx => hks x (List.mem_cons_of_mem nm hx)),
      aliasStep_suffix_hasKey idx (hks nm (List.mem_cons_self nm t)) hk]

theorem foldl_alias_covers {ks : List String}
    (idx : List (String × List Int))
    (hks : ∀ nm ∈ ks, endsWithBlueprint nm = true →
      endsWithBlueprint (stripBlueprint nm) = false) :
    ∀ nm ∈ ks, endsWithBlueprint nm = true → stripBlueprint nm ≠ "" →
      idxHasKey (stripBlueprint nm) (List.foldl aliasStep idx ks) = true ∧
      ∀ i ∈ lookupIdx nm idx,
        i ∈ lookupIdx (stripBlueprint nm) (List.foldl aliasStep idx ks) := by
  induction ks generalizing idx with
  | nil => simp
  | cons nm0 t ih =>
    intro nm hnm hends hne
    rw [List.foldl_cons]
    rcases List.mem_cons.mp hnm with rfl | hnm
    · have hstep : aliasStep idx nm =
          idxAppend (stripBlueprint nm) (lookupIdx nm idx) idx := by
        unfold aliasStep
        rw [if_pos hends, if_pos hne]
      constructor
      · apply foldl_alias_hasKey_grow
        rw [hstep, idxAppend_hasKey]
        simp
      · intro i hi
        apply foldl_alias_lookup_grow
        rw [hstep, idxAppend_lookup, if_pos rfl]
        exact List.mem_append_right _ hi
    · have hlook : lookupIdx nm (aliasStep idx nm0) = lookupIdx nm idx :=
        aliasStep_suffix_lookup idx (hks nm0 (List.mem_cons_self nm0 t)) hends
      obtain ⟨h1, h2⟩ := ih (aliasStep idx nm0)
        (fun x hx => hks x (List.mem_cons_of_mem nm0 hx)) nm hnm hends hne
      exact ⟨h1, fun i hi => h2 i (hlook ▸ hi)⟩

theorem idxAppend_keys_mem (k : String) (ids : List Int)
    (idx : List (String × List Int)) (k2 : String) :
    k2 ∈ (idxAppend k ids idx).map (·.1) ↔ k2 ∈ idx.map (·.1) ∨ k2 = k := by
  induction idx with
  | nil => simp [idxAppend]
  | cons p t ih =>
    obtain ⟨kp, vp⟩ := p
    rw [idxAppend]
    by_cases hp : kp = k
    · rw [if_pos hp]
      subst hp
      simp only [List.map_cons, List.mem_cons]
      constructor
      · intro h
        rcases h with rfl | h
        · exact Or.inl (Or.inl rfl)
        · exact Or.inl (Or.inr h)
      · intro h
        rcases h with (rfl | h) | rfl
        · exact Or.inl rfl
        · exact Or.inr h
        · exact Or.inl rfl
    · rw [if_neg hp]
      simp only [List.map_cons, List.mem_cons, ih]
      tauto

theorem idxAppend_keys_nodup (k : String) (ids : List Int)
    {idx : List (String × List Int)} (h : (idx.map (·.1)).Nodup) :
    ((idxAppend k ids idx).map (·.1)).Nodup := by
  induction idx with
  | nil => simp [idxAppend]
  | cons p t ih =>
    obtain ⟨kp, vp⟩ := p
    simp only [List.map_cons, List.nodup_cons] at h
    rw [idxAppend]
    by_cases hp : kp = k
    · rw [if_pos hp]
      simp only [List.map_cons, List.nodup_cons]
      exact h
    · rw [if_neg hp]
      simp only [List.map_cons, List.nodup_cons]
      refine ⟨?_, ih h.2⟩
      rw [idxAppend_keys_mem]
      intro hcon
      rcases hcon with hcon | hcon
      · exact h.1 hcon
      · exact hp hcon

theorem aliasStep_keys_nodup {idx : List (String × List Int)} (nm : String)
    (h : (idx.map (·.1)).Nodup) : ((aliasStep idx nm).map (·.1)).Nodup := by
  unfold aliasStep
  split
  · split
    · exact idxAppend_keys_nodup _ _ h
    · exact h
  · exact h

theorem foldl_alias_keys_nodup (ks : List String)
    {idx : List (String × List Int)} (h : (idx.map (·.1)).Nodup) :
    ((List.foldl aliasStep idx ks).map (·.1)).Nodup := by
  induction ks generalizing idx with
  | nil => exact h
  | cons nm t ih =>
    rw [List.foldl_cons]
    exact ih (aliasStep_keys_nodup nm h)

theorem hasKey_iff_mem_keys (k : String) (idx : List (String × List Int)) :
    idxHasKey k idx = true ↔ k ∈ idx.map (·.1) := by
  induction idx with
  | nil => simp [idxHasKey]
  | cons p t ih =>
    obtain ⟨kp, vp⟩ := p
    rw [idxHasKey]
    by_cases hp : kp = k
    · subst hp
      simp
    · rw [if_neg hp]
      simp only [List.map_cons, List.mem_cons, ih]
      constructor
      · exact Or.inr
      · intro h
        rcases h with rfl | h
        · exact absurd rfl hp
        · exact h

theorem hasKey_of_mem {kv : String × List Int} {idx : List (String × List Int)}
    (h : kv ∈ idx) : idxHasKey kv.1 idx = true := by
  induction idx with
  | nil => simp at h
  | cons p t ih =>
    obtain ⟨kp, vp⟩ := p
    rw [idxHasKey]
    rcases List.mem_cons.mp h with rfl | h
    · rw [if_pos rfl]
    · split
      · rfl
      · exact ih h

theorem lookupIdx_of_mem {kv : String × List Int} {idx : List (String × List Int)}
    (hnd : (idx.map (·.1)).Nodup) (h : kv ∈ idx) : lookupIdx kv.1 idx = kv.2 := by
  induction idx with
  | nil => simp at h
  | cons p t ih =>
    obtain ⟨kp, vp⟩ := p
    simp only [List.map_cons, List.nodup_cons] at hnd
    rw [lookupIdx]
    rcases List.mem_cons.mp h with h | h
    · rw [h]
      rw [if_pos rfl]
    · have hne2 : ¬ kp = kv.1 := by
        intro hc
        apply hnd.1
        rw [hc]
        exact List.mem_map.mpr ⟨kv, h, rfl⟩
      rw [if_neg hne2]
      exact ih hnd.2 h

theorem finalizeIdx_lookup (idx : List (String × List Int)) (k : String) :
    lookupIdx k (finalizeIdx idx) = sortedDedup (lookupIdx k idx) := by
  induction idx with
  | nil => rfl
  | cons p t ih =>
    obtain ⟨kp, vp⟩ := p
    rw [finalizeIdx, List.map_cons]
    rw [lookupIdx, lookupIdx]
    by_cases hp : kp = k
    · rw [if_pos hp, if_pos hp]
    · rw [if_neg hp, if_neg hp]
      rw [← ih]
      rfl

theorem finalizeIdx_hasKey (idx : List (String × List Int)) (k : String) :
    idxHasKey k (finalizeIdx idx) = idxHasKey k idx := by
  induction idx with
  | nil => rfl
  | cons p t ih =>
    obtain ⟨kp, vp⟩ := p
    rw [finalizeIdx, List.map_cons, idxHasKey, idxHasKey]
    split
    · rfl
    · rw [← ih]
      rfl

theorem finalizeIdx_mem {kv : String × List Int} {idx : List (String × List Int)} :
    kv ∈ finalizeIdx idx ↔ ∃ v, (kv.1, v) ∈ idx ∧ kv.2 = sortedDedup v := by
  rw [finalizeIdx, List.mem_map]
  constructor
  · intro h
    obtain ⟨p, hp, hpe⟩ := h
    exact ⟨p.2, by rw [← hpe]; exact hp, by rw [← hpe]⟩
  · intro h
    obtain ⟨v, hv, hve⟩ := h
    exact ⟨(kv.1, v), hv, by obtain ⟨k1, v1⟩ := kv; simp at hve; rw [hve]⟩

theorem nameIndexInit_go_nodup (l : List (Int × TypeOut))
    (acc : List (String × List Int)) (h : (acc.map (·.1)).Nodup) :
    ((List.foldl
      (fun idx p =>
        if normalize_name p.2.name = "" then idx
        else idxAppend (normalize_name p.2.name) [p.1] idx) acc l).map (·.1)).Nodup := by
  induction l generalizing acc with
  | nil => exact h
  | cons p t ih =>
    rw [List.foldl_cons]
    split
    · exact ih acc h
    · exact ih _ (idxAppend_keys_nodup _ _ h)

theorem nameIndexInit_keys_nodup (l : List (Int × TypeOut)) :
    ((nameIndexInit l).map (·.1)).Nodup :=
  nameIndexInit_go_nodup l [] (by simp)

theorem nameIndexInit_go_norm (l : List (Int × TypeOut))
    (acc : List (String × List Int))
    (h : ∀ k ∈ acc.map (·.1), (∃ s, k = normalize_name s) ∧ k ≠ "") :
    ∀ k ∈ (List.foldl
      (fun idx p =>
        if normalize_name p.2.name = "" then idx
        else idxAppend (normalize_name p.2.name) [p.1] idx) acc l).map (·.1),
      (∃ s, k = normalize_name s) ∧ k ≠ "" := by
  induction l generalizing acc with
  | nil => exact h
  | cons p t ih =>
    rw [List.foldl_cons]
    split
    · exact ih acc h
    next hne =>
      refine ih _ ?_
      intro k hk
      rcases (idxAppend_keys_mem _ _ _ _).mp hk with hk | rfl
      · exact h k hk
      · exact ⟨⟨p.2.name, rfl⟩, hne⟩

theorem nameIndexInit_keys_norm (l : List (Int × TypeOut)) :
    ∀ k ∈ (nameIndexInit l).map (·.1),
      (∃ s, k = normalize_name s) ∧ k ≠ "" :=
  nameIndexInit_go_norm l [] (by simp)

theorem stripWs_nil_all_ws {y : List Char} (h : stripWs y = []) :
    ∀ c ∈ y, isPyWs c = true := by
  unfold stripWs at h
  rw [List.reverse_eq_nil_iff, List.dropWhile_eq_nil_iff] at h
  intro c hc
  rw [← List.takeWhile_append_dropWhile isPyWs y] at hc
  rcases List.mem_append.mp hc with hc | hc
  · exact List.mem_takeWhile_imp hc
  · exact h c (by rw [List.mem_reverse]; exact hc)

theorem BLUEPRINT_SUFFIX_len : BLUEPRINT_SUFFIX.length = 10 := by decide

theorem stripBlueprint_ne_empty {k : String}
    (hnorm : ∃ s, k = normalize_name s) (hsuf : endsWithBlueprint k = true) :
    stripBlueprint k ≠ "" := by
  obtain ⟨s, rfl⟩ := hnorm
  obtain ⟨hhead, _⟩ := (normalize_props s).2
  obtain ⟨y, hy⟩ := List.isSuffixOf_iff_suffix.mp hsuf
  have hlen : (normalize_name s).data.length = y.length + 10 := by
    rw [← hy, List.length_append, BLUEPRINT_SUFFIX_len]
  have htake : (normalize_name s).data.take ((normalize_name s).data.length - 10) = y := by
    rw [hlen, ← hy]
    have h10 : y.length + 10 - 10 = y.length := by omega
    rw [h10]
    exact List.take_left y BLUEPRINT_SUFFIX
  rw [stripBlueprint, BLUEPRINT_SUFFIX_len, htake]
  intro hcon
  have hnil : stripWs y = [] := congrArg String.data hcon
  cases y with
  | nil =>
    have hsp : (normalize_name s).data.head? = some ' ' := by
      rw [← hy]
      rfl
    exact absurd (hhead ' ' hsp) (by decide)
  | cons c y2 =>
    have hch : (normalize_name s).data.head? = some c := by
      rw [← hy]
      rfl
    exact absurd (stripWs_nil_all_ws hnil c (List.mem_cons_self c y2))
      (by simp [hhead c hch])

theorem runPipeline_nameIndex {types : String → Option TypeRow}
    {bps : List (String × Bp)} {cats : List (String × CatRow)} {mode : Mode}
    {a : Artifacts} (h : runPipeline types bps cats mode = .ok a) :
    a.nameIndex = finalizeIdx (aliasExpand (nameIndexInit a.types)) := by
  simp only [runPipeline] at h
  split at h
  next bcid entries hcat hents =>
    split at h
    next touts htouts =>
      injection h with h
      subst h
      rfl
    · exact absurd h (by simp)
  · exact absurd h (by simp)
  · exact absurd h (by simp)

/-- C9 (amended): in the final name index every id list is deduplicated
and sorted strictly ascending, unconditionally; and the alias law — every
key ending in " blueprint" has its suffix-stripped key present, mapping to
a superset — holds provided no *original* normalized type name yields a
key whose stripped form still ends in " blueprint" (chained
" blueprint blueprint" names break the law, see the counterexample). -/
theorem C9_alias_law_and_sorted {types : String → Option TypeRow}
    {bps : List (String × Bp)} {cats : List (String × CatRow)} {mode : Mode}
    {a : Artifacts} (h : runPipeline types bps cats mode = .ok a) :
    (∀ kv ∈ a.nameIndex, kv.2.Pairwise (· < ·)) ∧
    ((∀ k ∈ (nameIndexInit a.types).map (·.1),
        endsWithBlueprint k = true →
          endsWithBlueprint (stripBlueprint k) = false) →
      ∀ kv ∈ a.nameIndex, endsWithBlueprint kv.1 = true →
        idxHasKey (stripBlueprint kv.1) a.nameIndex = true ∧
        ∀ i ∈ kv.2, i ∈ lookupIdx (stripBlueprint kv.1) a.nameIndex) := by
  have hidx := runPipeline_nameIndex h
  constructor
  · intro kv hkv
    rw [hidx] at hkv
    obtain ⟨v, _, hv⟩ := finalizeIdx_mem.mp hkv
    rw [hv]
    exact sortedDedup_pairwise v
  · intro H kv hkv hsuf
    rw [hidx] at hkv
    obtain ⟨v, hvmem, hv⟩ := finalizeIdx_mem.mp hkv
    have hnd0 := nameIndexInit_keys_nodup a.types
    have hndfin : ((aliasExpand (nameIndexInit a.types)).map (·.1)).Nodup :=
      foldl_alias_keys_nodup _ hnd0
    have hhasfin : idxHasKey kv.1 (aliasExpand (nameIndexInit a.types)) = true := by
      have h0 := hasKey_of_mem hvmem
      exact h0
    have hhas0 : idxHasKey kv.1 (nameIndexInit a.types) = true := by
      rw [← foldl_alias_suffix_hasKey (nameIndexInit a.types) H hsuf]
      exact hhasfin
    have hmem0 : kv.1 ∈ (nameIndexInit a.types).map (·.1) :=
      (hasKey_iff_mem_keys _ _).mp hhas0
    have hlook : lookupIdx kv.1 (aliasExpand (nameIndexInit a.types)) = v := by
      have h0 := lookupIdx_of_mem hndfin hvmem
      exact h0
    have hlook0 : lookupIdx kv.1 (nameIndexInit a.types) = v := by
      rw [← hlook]
      exact (foldl_alias_suffix_lookup (nameIndexInit a.types) H hsuf).symm
    have hne : stripBlueprint kv.1 ≠ "" :=
      stripBlueprint_ne_empty (nameIndexInit_keys_norm a.types kv.1 hmem0).1 hsuf
    obtain ⟨hck, hcl⟩ := foldl_alias_covers (nameIndexInit a.types) H kv.1
      hmem0 hsuf hne
    constructor
    · rw [hidx, finalizeIdx_hasKey]
      exact hck
    · intro i hi
      rw [hv, sortedDedup_mem] at hi
      rw [hidx, finalizeIdx_lookup, sortedDedup_mem]
      exact hcl i (hlook0 ▸ hi)

/-- C9 counterexample: the type named "Thing Blueprint Blueprint" yields
the alias key "thing blueprint", which itself ends in " blueprint" but is
only added *during* the alias loop (after the snapshot), so its stripped
key "thing" is never created — the alias law fails on the final index. -/
theorem C9_counterexample :
    runPipeline tyC5 [("100", bpC5)] [] .t1 = .ok artC5 ∧
    ("thing blueprint", [100]) ∈ artC5.nameIndex ∧
    endsWithBlueprint "thing blueprint" = true ∧
    stripBlueprint "thing blueprint" = "thing" ∧
    idxHasKey "thing" artC5.nameIndex = false :=
  ⟨by decide, by decide, by decide, by decide, by decide⟩

def prodRowC9 : TypeRow :=
  { name := some (.obj (some "Widget")),
    category_id := some (.vInt 7), meta_group_id := some (.vInt 1) }

/-- Types whose names carry at most a single " blueprint" qualifier. -/
def tyC9 : String → Option TypeRow := fun s =>
  if s = "100" then some { name := some (.obj (some "Widget Blueprint")) }
  else if s = "5" then some prodRowC9
  else if s = "34" then some { name := some (.obj (some "Tritanium")) }
  else none

def bpC9 : Bp :=
  { blueprint_type_id := some (.vInt 100),
    activities := some { manufacturing := some mfgC5 } }

def artC9 : Artifacts :=
  { mode := .t1, blueprintCategoryId := none,
    blueprints := [("100",
      { blueprintTypeId := 100, productTypeId := 5, productQty := 1,
        time := 1200, materials := [(34, 500)], maxRuns := 0 })],
    types := [(5, { typeId := 5, name := "Widget", volume := 0, groupId := 0,
                    categoryId := 7 }),
              (34, { typeId := 34, name := "Tritanium", volume := 0,
                     groupId := 0, categoryId := 0 }),
              (100, { typeId := 100, name := "Widget Blueprint", volume := 0,
                      groupId := 0, categoryId := 0 })],
    nameIndex := [("widget", [5, 100]), ("tritanium", [34]),
                  ("widget blueprint", [100])] }

/-- Witness for the amended C9 theorem at a concrete input. -/
theorem C9_alias_law_and_sorted_witness :
    (∀ kv ∈ artC9.nameIndex, kv.2.Pairwise (· < ·)) ∧
    ((∀ k ∈ (nameIndexInit artC9.types).map (·.1),
        endsWithBlueprint k = true →
          endsWithBlueprint (stripBlueprint k) = false) →
      ∀ kv ∈ artC9.nameIndex, endsWithBlueprint kv.1 = true →
        idxHasKey (stripBlueprint kv.1) artC9.nameIndex = true ∧
        ∀ i ∈ kv.2, i ∈ lookupIdx (stripBlueprint kv.1) artC9.nameIndex) :=
  C9_alias_law_and_sorted
    (by decide : runPipeline tyC9 [("100", bpC9)] [] .t1 = .ok artC9)

/-! ## Iteration-order independence (C3) -/

theorem perm_len_le_one_eq {l1 l2 : List α} (hperm : l1.Perm l2)
    (hlen : l1.length ≤ 1) : l1 = l2 := by
  cases l1 with
  | nil => exact hperm.nil_eq
  | cons a t =>
    cases t with
    | nil => exact List.singleton_perm.mp hperm
    | cons b t2 => simp at hlen

theorem blueprintCategoryId_perm {cats1 cats2 : List (String × CatRow)}
    (hperm : cats1.Perm cats2)
    (hlen : (cats1.filter
      (fun kv => catNameEn kv.2.name == some "Blueprint")).length ≤ 1) :
    blueprintCategoryId cats1 = blueprintCategoryId cats2 := by
  have hfind : cats1.find? (fun kv => catNameEn kv.2.name == some "Blueprint") =
      cats2.find? (fun kv => catNameEn kv.2.name == some "Blueprint") := by
    rw [← List.filter_head? _ cats1, ← List.filter_head? _ cats2,
      perm_len_le_one_eq (hperm.filter _) hlen]
  rw [blueprintCategoryId, blueprintCategoryId, hfind]

theorem buildEntries_perm {types : String → Option TypeRow} {mode : Mode}
    {bps1 bps2 : List (String × Bp)} (hperm : bps1.Perm bps2) :
    ∀ e1, buildEntries types mode bps1 = .ok e1 →
      ∃ e2, buildEntries types mode bps2 = .ok e2 ∧ e1.Perm e2 := by
  induction hperm with
  | nil =>
    intro e1 h1
    exact ⟨e1, h1, List.Perm.refl e1⟩
  | cons x p ih =>
    rename_i l1 l2
    intro e1 h1
    obtain ⟨kx, bpx⟩ := x
    rw [buildEntries] at h1 ⊢
    cases hp : processBp types mode bpx with
    | error er => rw [hp] at h1; exact absurd h1 (by simp)
    | ok o =>
      cases o with
      | none =>
        rw [hp] at h1
        exact ih e1 h1
      | some r =>
        rw [hp] at h1
        cases hr1 : buildEntries types mode l1 with
        | error er => rw [hr1] at h1; exact absurd h1 (by simp)
        | ok rs1 =>
          rw [hr1] at h1
          injection h1 with h1
          subst h1
          obtain ⟨rs2, hrs2, hp2⟩ := ih rs1 hr1
          rw [hrs2]
          exact ⟨r :: rs2, rfl, hp2.cons r⟩
  | swap x y t =>
    intro e1 h1
    obtain ⟨kx, bpx⟩ := x
    obtain ⟨ky, bpy⟩ := y
    rw [buildEntries] at h1 ⊢
    cases hpy : processBp types mode bpy with
    | error er =>
      rw [hpy] at h1
      exact absurd h1 (by simp)
    | ok oy =>
      rw [hpy] at h1
      cases hpx : processBp types mode bpx with
      | error er =>
        cases oy with
        | none =>
          rw [buildEntries, hpx] at h1
          exact absurd h1 (by simp)
        | some ry =>
          rw [buildEntries, hpx] at h1
          exact absurd h1 (by simp)
      | ok ox =>
        cases ht : buildEntries types mode t with
        | error er =>
          cases oy with
          | none =>
            rw [buildEntries, hpx] at h1
            cases ox with
            | none => rw [ht] at h1; exact absurd h1 (by simp)
            | some rx => rw [ht] at h1; exact absurd h1 (by simp)
          | some ry =>
            rw [buildEntries, hpx] at h1
            cases ox with
            | none => rw [ht] at h1; exact absurd h1 (by simp)
            | some rx => rw [ht] at h1; exact absurd h1 (by simp)
        | ok rs =>
          rw [buildEntries, hpx, ht] at h1
          rw [buildEntries, hpy, ht]
          cases oy with
          | none =>
            cases ox with
            | none =>
              injection h1 with h1
              subst h1
              exact ⟨rs, rfl, List.Perm.refl rs⟩
            | some rx =>
              injection h1 with h1
              subst h1
              exact ⟨rx :: rs, rfl, List.Perm.refl _⟩
          | some ry =>
            cases ox with
            | none =>
              injection h1 with h1
              subst h1
              exact ⟨ry :: rs, rfl, List.Perm.refl _⟩
            | some rx =>
              injection h1 with h1
              subst h1
              exact ⟨rx :: ry :: rs, rfl, List.Perm.swap rx ry rs⟩
  | trans p1 p2 ih1 ih2 =>
    intro e1 h1
    obtain ⟨e2, h2, hp12⟩ := ih1 e1 h1
    obtain ⟨e3, h3, hp23⟩ := ih2 e2 h2
    exact ⟨e3, h3, hp12.trans hp23⟩

/-- C3 (amended): with the `blueprints` and `categories` mappings presented
in any iteration order (permutations with the same key→value bindings),
and at most one category named "Blueprint", two successful runs produce an
identical type-subset artifact (including the resolved blueprint category
id) and an identical name-index artifact, and blueprint-subset mappings
that are permutations of one another — i.e. equal as mappings, though the
serialization order of the `blueprints` object follows the raw iteration
order, so byte-for-byte identity of that artifact does not hold (see the
counterexample for a mapping-level failure without the category
hypothesis). -/
theorem C3_order_independence {types : String → Option TypeRow}
    {bps1 bps2 : List (String × Bp)} {cats1 cats2 : List (String × CatRow)}
    {mode : Mode} {a1 a2 : Artifacts}
    (hb : bps1.Perm bps2) (hc : cats1.Perm cats2)
    (hcat : (cats1.filter
      (fun kv => catNameEn kv.2.name == some "Blueprint")).length ≤ 1)
    (h1 : runPipeline types bps1 cats1 mode = .ok a1)
    (h2 : runPipeline types bps2 cats2 mode = .ok a2) :
    a1.mode = a2.mode ∧
    a1.blueprintCategoryId = a2.blueprintCategoryId ∧
    a1.types = a2.types ∧
    a1.nameIndex = a2.nameIndex ∧
    a1.blueprints.Perm a2.blueprints := by
  simp only [runPipeline] at h1 h2
  split at h1
  next bcid1 entries1 hcat1 hents1 =>
    split at h1
    next touts1 htouts1 =>
      injection h1 with h1
      subst h1
      split at h2
      next bcid2 entries2 hcat2 hents2 =>
        split at h2
        next touts2 htouts2 =>
          injection h2 with h2
          subst h2
          have hbcid : bcid1 = bcid2 := by
            have hchain := hcat1.symm.trans
              ((blueprintCategoryId_perm hc hcat).trans hcat2)
            injection hchain
          obtain ⟨e2, he2, hpe0⟩ := buildEntries_perm hb entries1 hents1
          have hee : e2 = entries2 := by
            rw [he2] at hents2
            injection hents2
          have hpe : entries1.Perm entries2 := hee ▸ hpe0
          have hneed : sortedDedup (entries1.flatMap (fun r => r.2.2)) =
              sortedDedup (entries2.flatMap (fun r => r.2.2)) := by
            apply sortedDedup_congr
            intro x
            exact ((hpe.map (fun r => r.2.2)).flatten).mem_iff
          have htt : touts1 = touts2 := by
            rw [hneed] at htouts1
            rw [htouts1] at htouts2
            injection htouts2
          subst htt
          exact ⟨rfl, by simpa using hbcid, rfl, rfl,
            hpe.map (fun r => (r.1, r.2.1))⟩
        · exact absurd h2 (by simp)
      · exact absurd h2 (by simp)
      · exact absurd h2 (by simp)
    · exact absurd h1 (by simp)
  · exact absurd h1 (by simp)
  · exact absurd h1 (by simp)

def catBP : CatRow := ⟨some (.obj (some "Blueprint"))⟩

/-- C3 counterexample: two categories both named "Blueprint" — the same
mapping in two iteration orders resolves different blueprint category ids,
so the type-subset artifacts differ beyond the timestamp. -/
theorem C3_counterexample :
    List.Perm [("9", catBP), ("10", catBP)] [("10", catBP), ("9", catBP)] ∧
    runPipeline tyC1 [] [("9", catBP), ("10", catBP)] .t1 =
      .ok { mode := .t1, blueprintCategoryId := some 9, blueprints := [],
            types := [], nameIndex := [] } ∧
    runPipeline tyC1 [] [("10", catBP), ("9", catBP)] .t1 =
      .ok { mode := .t1, blueprintCategoryId := some 10, blueprints := [],
            types := [], nameIndex := [] } ∧
    (some (9 : Int)) ≠ some 10 :=
  ⟨List.Perm.swap ("10", catBP) ("9", catBP) [], by decide, by decide, by decide⟩

def tyC3 : String → Option TypeRow := fun s =>
  if s = "100" ∨ s = "5" ∨ s = "34" ∨ s = "200" ∨ s = "6" then some {} else none

def mfgC3b : Activity :=
  { products := .list [.row ⟨some (.vInt 6), some (.vInt 1), none⟩],
    materials := .list [.row ⟨some (.vInt 34), some (.vInt 7), none⟩] }

def bpC3b : Bp :=
  { blueprint_type_id := some (.vInt 200),
    activities := some { manufacturing := some mfgC3b } }

def eC3b : Entry :=
  { blueprintTypeId := 200, productTypeId := 6, productQty := 1, time := 0,
    materials := [(34, 7)], maxRuns := 0 }

def typesC3 : List (Int × TypeOut) :=
  [(5, blankTypeOut 5), (6, blankTypeOut 6), (34, blankTypeOut 34),
   (100, blankTypeOut 100), (200, blankTypeOut 200)]

def artC3a : Artifacts :=
  { mode := .full, blueprintCategoryId := some 9,
    blueprints := [("100", eC1), ("200", eC3b)],
    types := typesC3, nameIndex := [] }

def artC3b : Artifacts :=
  { mode := .full, blueprintCategoryId := some 9,
    blueprints := [("200", eC3b), ("100", eC1)],
    types := typesC3, nameIndex := [] }

/-- Witness for the amended C3 theorem: the same two blueprints in the two
iteration orders. -/
theorem C3_order_independence_witness :
    artC3a.mode = artC3b.mode ∧
    artC3a.blueprintCategoryId = artC3b.blueprintCategoryId ∧
    artC3a.types = artC3b.types ∧
    artC3a.nameIndex = artC3b.nameIndex ∧
    artC3a.blueprints.Perm artC3b.blueprints :=
  C3_order_independence
    (List.Perm.swap ("200", bpC3b) ("100", bpC1) [])
    (List.Perm.refl [("9", catBP)])
    (by decide)
    (by decide : runPipeline tyC3 [("100", bpC1), ("200", bpC3b)]
      [("9", catBP)] .full = .ok artC3a)
    (by decide : runPipeline tyC3 [("200", bpC3b), ("100", bpC1)]
      [("9", catBP)] .full = .ok artC3b)
